import Mathlib

/-!
Verification of the phylogenetic tree-layout program (my_phylogeny.py / phyli.py).

The program lays out a rooted phylogenetic tree (a Biopython `Clade`
hierarchy) as a node-link diagram: `get_col_positions` assigns each clade an
integer column proportional to its cumulative branch-length depth,
`get_row_positions` assigns leaves rows 0,2,4,… and each internal clade the
integer midpoint of its first and last child's rows, and `add_to_elements`
converts the tree into Cytoscape node/edge elements with synthetic "support"
nodes for right-angle connectors.

Python strings are modelled as `List Char`, Python floats as `Rat` (exact
arithmetic), Python dicts keyed by `Clade` objects as association lists keyed
by the clade's path from the root (Python dict keys here are object
identities, and within one tree a clade object is determined by its path of
child indices from the root).  Python exceptions are modelled by
`Except String`, the error string naming the exception class raised.
-/

/-- Identifying path of child indices from the root down to a clade. -/
abbrev TPath := List Nat

/-- Model of Bio.Phylo.BaseTree.Clade: an optional name (leaf label), an
optional branch length, an optional confidence value, and the ordered list of
child clades.  A whole tree is represented by its root clade
(`tree.root` / `tree.clade` in the source). -/
inductive Clade where
  | mk (name : Option (List Char)) (branch_length : Option Rat)
       (confidence : Option Rat) (clades : List Clade)

/-- Children of a clade (`clade.clades`). -/
def Clade.clades : Clade → List Clade
  | .mk _ _ _ cs => cs

/-- Leaf label of a clade (`clade.name`). -/
def Clade.name : Clade → Option (List Char)
  | .mk nm _ _ _ => nm

/-- Branch length of a clade (`clade.branch_length`). -/
def Clade.branch_length : Clade → Option Rat
  | .mk _ bl _ _ => bl

/-- Confidence value of a clade (`clade.confidence.value`, `none` when the
clade has no confidence annotation). -/
def Clade.confidence : Clade → Option Rat
  | .mk _ _ cf _ => cf

/-- Biopython `clade.is_terminal()`: true when the clade has no children. -/
def Clade.is_terminal (c : Clade) : Bool := c.clades.isEmpty

/- Clade sitting at a given path of child indices below `c`. -/
mutual
def subcladeAt : Clade → TPath → Option Clade
  | c, [] => some c
  | .mk _ _ _ cs, i :: q => subcladeAtL cs i q
def subcladeAtL : List Clade → Nat → TPath → Option Clade
  | [], _, _ => none
  | c :: _, 0, q => subcladeAt c q
  | _ :: cs, i + 1, q => subcladeAtL cs i q
end

/- Total number of clades in the tree. -/
mutual
def cladeCount : Clade → Nat
  | .mk _ _ _ cs => 1 + cladeCountL cs
def cladeCountL : List Clade → Nat
  | [] => 0
  | c :: cs => cladeCount c + cladeCountL cs
end

/- Model of Biopython `tree.get_terminals()` (`find_clades(terminal=True,
order="preorder")`): the terminal clades in depth-first pre-order, each paired
with its identifying path.  A childless root is itself terminal. -/
mutual
def get_terminals : Clade → TPath → List (TPath × Clade)
  | .mk nm bl cf [], path => [(path, .mk nm bl cf [])]
  | .mk _ _ _ (c :: cs), path => get_terminalsL (c :: cs) path 0
def get_terminalsL : List Clade → TPath → Nat → List (TPath × Clade)
  | [], _, _ => []
  | c :: cs, path, i => get_terminals c (path ++ [i]) ++ get_terminalsL cs path (i + 1)
end

/-- Biopython `depths`: the per-edge contribution of a clade, `1` with unit
branch lengths, otherwise `clade.branch_length or 0`. -/
def depth_of (unit : Bool) (c : Clade) : Rat :=
  if unit then 1 else c.branch_length.getD 0

/- Model of the recursive `update_depths` inside Biopython `Tree.depths`:
records the current clade's depth and recurses into children, adding each
child's `depth_of` contribution. -/
mutual
def update_depths : Bool → Clade → TPath → Rat → List (TPath × Rat)
  | unit, .mk _ _ _ cs, path, d => (path, d) :: update_depthsL unit cs path 0 d
def update_depthsL : Bool → List Clade → TPath → Nat → Rat → List (TPath × Rat)
  | _, [], _, _, _ => []
  | unit, c :: cs, path, i, d =>
    update_depths unit c (path ++ [i]) (d + depth_of unit c) ++
      update_depthsL unit cs path (i + 1) d
end

/-- Model of Biopython `tree.depths(unit_branch_lengths)`: mapping from each
clade (keyed by path, in insertion order = pre-order) to its depth from the
root; the root starts at `root.branch_length or 0`. -/
def tree_depths (t : Clade) (unit : Bool) : List (TPath × Rat) :=
  update_depths unit t [] (t.branch_length.getD 0)

/-- Model of Biopython `_utils.trim_str`: truncate to `maxlen` characters,
replacing the tail with `dots` when too long. -/
def trim_str (text : List Char) (maxlen : Nat) (dots : List Char) : List Char :=
  if text.length > maxlen then text.take (maxlen - dots.length) ++ dots else text

/-- Model of `str(clade)` for a Biopython clade: the name trimmed to 40
characters when the name is truthy (present and nonempty), otherwise the
class name "Clade". -/
def cladeStr (c : Clade) : List Char :=
  match c.name with
  | some nm => if nm.isEmpty then "Clade".data else trim_str nm 40 "...".data
  | none => "Clade".data

/-- Python `max` over a list of rationals (the empty case, which raises
ValueError in Python, is given a junk value and guarded at call sites). -/
def pyMax : List Rat → Rat
  | [] => 0
  | x :: xs => xs.foldl max x

/-- Python `int()` applied to a rational: truncation toward zero. -/
def pyInt (q : Rat) : Int :=
  if 0 ≤ q then ⌊q⌋ else ⌈q⌉

/-- Association-list lookup modelling Python dict access with path keys. -/
def alookup {α : Type} : List (TPath × α) → TPath → Option α
  | [], _ => none
  | (k, v) :: rest, key => if key = k then some v else alookup rest key

/-- Association-list update modelling Python `d[k] = v`: replace in place when
the key is present (preserving insertion order), else append. -/
def dictSet {α : Type} (m : List (TPath × α)) (k : TPath) (v : α) : List (TPath × α) :=
  if (alookup m k).isSome then
    m.map (fun kv => if kv.1 = k then (k, v) else kv)
  else m ++ [(k, v)]

/-- Decimal digits of a natural number, modelling Python `str(n)` for `n ≥ 0`
(the same digit list Lean's own `Nat.repr` produces). -/
def natChars (n : Nat) : List Char := Nat.toDigits 10 n

deriving instance DecidableEq for Except

/-- Row-position map: clade path to its integer row (Python dict of ints; all
values produced by the program are non-negative). -/
abbrev RowMap := List (TPath × Nat)

/-- Drawable Cytoscape node emitted by `add_to_elements`, with the final value
of its data dict: identifier, pixel position, display class, grabbable flag,
optional `name` entry (present exactly on terminals, holding the possibly-null
clade name) and optional `confidence` entry. -/
structure CyNode where
  id : List Char
  x : Int
  y : Int
  classes : List Char
  grabbable : Bool
  name : Option (Option (List Char))
  confidence : Option Rat
deriving DecidableEq

/-- Drawable Cytoscape edge: source and target identifiers, an optional
`length` data entry (present exactly on support-to-child edges, holding the
possibly-null branch length of the originating clade) and the originating
clade's identifier. -/
structure CyEdge where
  source : List Char
  target : List Char
  length : Option (Option Rat)
  sourceCladeId : List Char
deriving DecidableEq

/-- Net effect of the per-child-iteration statement `if clade.confidence and
clade.confidence.value: cy_source["data"]["confidence"] = ...`: the parent
node's data dict ends up with a confidence entry exactly when the loop ran at
least once (the clade has children) and the confidence value is truthy. -/
def confidence_attr (cf : Option Rat) (cs : List Clade) : Option Rat :=
  match cf with
  | some v => if v ≠ 0 ∧ ¬ cs.isEmpty then some v else none
  | none => none

namespace MyPhylogeny

/-- Embedding of `get_col_positions` (src/my_phylogeny.py lines 21-41): map
each clade to `int(depth * cols_per_branch_unit + 1.0)` where depths come from
`tree.depths()`, falling back to unit branch lengths when the maximum depth is
zero, and `cols_per_branch_unit = (column_width - max_label_width - 1 -
ceil(log2(len(taxa)))) / max(depths)`.  An empty taxa list raises ValueError
at `max(...)`; a zero maximum depth raises ZeroDivisionError. -/
def get_col_positions (tree : Clade) (column_width : Int) :
    Except String (List (TPath × Int)) :=
  let taxa := get_terminals tree []
  match taxa.map (fun pc => (cladeStr pc.2).length) with
  | [] => .error "ValueError"
  | w :: ws =>
    let max_label_width : Int := (ws.foldl max w : Nat)
    let drawing_width : Int := column_width - max_label_width - 1
    let depths0 := tree_depths tree false
    let depths :=
      if pyMax (depths0.map Prod.snd) = 0 then tree_depths tree true else depths0
    let fudge_margin : Int := (Nat.clog 2 taxa.length : Nat)
    if pyMax (depths.map Prod.snd) = 0 then .error "ZeroDivisionError"
    else
      let cols_per_branch_unit : Rat :=
        ((drawing_width - fudge_margin : Int) : Rat) / pyMax (depths.map Prod.snd)
      .ok (depths.map (fun pb => (pb.1, pyInt (pb.2 * cols_per_branch_unit + 1))))

/-- Embedding of the initial `positions` dict of `get_row_positions`:
`dict((taxon, 2 * idx) for idx, taxon in enumerate(taxa))`. -/
def init_positions : List (TPath × Clade) → Nat → RowMap
  | [], _ => []
  | (p, _) :: rest, i => (p, 2 * i) :: init_positions rest (i + 1)

/- Embedding of `calc_row` (src/my_phylogeny.py lines 47-53): recursively
resolve the children not yet in the positions dict, then set this clade's row
to `(positions[clades[0]] + positions[clades[-1]]) // 2`.  On a childless
clade `clades[0]` raises IndexError. -/
mutual
def calc_row : Clade → TPath → RowMap → Except String RowMap
  | .mk _ _ _ cs, path, m =>
    match calc_rowL cs path 0 m with
    | .error e => .error e
    | .ok m1 =>
      match cs with
      | [] => .error "IndexError"
      | _ :: _ =>
        match alookup m1 (path ++ [0]), alookup m1 (path ++ [cs.length - 1]) with
        | some a, some b => .ok (dictSet m1 path ((a + b) / 2))
        | _, _ => .error "KeyError"
def calc_rowL : List Clade → TPath → Nat → RowMap → Except String RowMap
  | [], _, _, m => .ok m
  | c :: cs, path, i, m =>
    match
      (if (alookup m (path ++ [i])).isSome then .ok m
       else calc_row c (path ++ [i]) m : Except String RowMap) with
    | .error e => .error e
    | .ok m1 => calc_rowL cs path (i + 1) m1
end

/-- Embedding of `get_row_positions` (src/my_phylogeny.py lines 43-56): seed
the positions dict with rows 0,2,4,… for the terminals in traversal order,
then run `calc_row` from the root. -/
def get_row_positions (tree : Clade) : Except String RowMap :=
  calc_row tree [] (init_positions (get_terminals tree []) 0)

/- Embedding of `add_to_elements` (src/my_phylogeny.py lines 58-116),
returning the node and edge lists it appends for the subtree rooted at the
given clade.  `add_childrenL` is the `for n, child in enumerate(children)`
loop; missing position-dict keys raise KeyError.  The parent node's data dict
receives a `confidence` entry when the loop runs at least once and the
clade's confidence is truthy. -/
mutual
def add_to_elements (colp : List (TPath × Int)) (rowp : RowMap)
    (xlen ylen : Int) (grabbable : Bool) :
    Clade → TPath → List Char → Except String (List CyNode × List CyEdge)
  | .mk nm bl cf cs, path, clade_id =>
    match alookup colp path, alookup rowp path with
    | some col, some row =>
      let pos_x : Int := col * xlen
      let pos_y : Int := (row : Int) * ylen
      let cy_source : CyNode :=
        { id := clade_id, x := pos_x, y := pos_y
          classes := if cs.isEmpty then "terminal".data else "nonterminal".data
          grabbable := grabbable
          name := if cs.isEmpty then some nm else none
          confidence := confidence_attr cf cs }
      match add_childrenL colp rowp xlen ylen grabbable cs path clade_id pos_x bl 0 with
      | .error e => .error e
      | .ok (ns, es) => .ok (cy_source :: ns, es)
    | _, _ => .error "KeyError"
def add_childrenL (colp : List (TPath × Int)) (rowp : RowMap)
    (xlen ylen : Int) (grabbable : Bool) :
    List Clade → TPath → List Char → Int → Option Rat → Nat →
      Except String (List CyNode × List CyEdge)
  | [], _, _, _, _, _ => .ok ([], [])
  | child :: rest, path, clade_id, pos_x, parent_bl, n =>
    let support_id := clade_id ++ 's' :: natChars n
    let child_id := clade_id ++ 'c' :: natChars n
    match alookup rowp (path ++ [n]) with
    | none => .error "KeyError"
    | some rowc =>
      let cy_support_node : CyNode :=
        { id := support_id, x := pos_x, y := (rowc : Int) * ylen
          classes := "support".data, grabbable := grabbable
          name := none, confidence := none }
      let cy_support_edge : CyEdge :=
        { source := clade_id, target := support_id
          length := none, sourceCladeId := clade_id }
      let cy_edge : CyEdge :=
        { source := support_id, target := child_id
          length := some parent_bl, sourceCladeId := clade_id }
      match add_to_elements colp rowp xlen ylen grabbable child (path ++ [n]) child_id with
      | .error e => .error e
      | .ok (cns, ces) =>
        match add_childrenL colp rowp xlen ylen grabbable rest path clade_id pos_x
            parent_bl (n + 1) with
        | .error e => .error e
        | .ok (rns, res) =>
          .ok (cy_support_node :: (cns ++ rns),
               cy_support_edge :: cy_edge :: (ces ++ res))
end

/-- Embedding of `generate_elements` (src/my_phylogeny.py lines 20-126) with
its default `column_width=80`: compute column and row positions, then emit
elements starting from the root with identifier "r". -/
def generate_elements (tree : Clade) (xlen ylen : Int) (grabbable : Bool) :
    Except String (List CyNode × List CyEdge) :=
  match get_col_positions tree 80 with
  | .error e => .error e
  | .ok colp =>
    match get_row_positions tree with
    | .error e => .error e
    | .ok rowp => add_to_elements colp rowp xlen ylen grabbable tree [] ['r']

end MyPhylogeny

namespace Phyli

/-- Embedding of `get_col_positions` from src/phyli.py (lines 21-39); the code
is identical to the my_phylogeny.py variant. -/
def get_col_positions (tree : Clade) (column_width : Int) :
    Except String (List (TPath × Int)) :=
  let taxa := get_terminals tree []
  match taxa.map (fun pc => (cladeStr pc.2).length) with
  | [] => .error "ValueError"
  | w :: ws =>
    let max_label_width : Int := (ws.foldl max w : Nat)
    let drawing_width : Int := column_width - max_label_width - 1
    let depths0 := tree_depths tree false
    let depths :=
      if pyMax (depths0.map Prod.snd) = 0 then tree_depths tree true else depths0
    let fudge_margin : Int := (Nat.clog 2 taxa.length : Nat)
    if pyMax (depths.map Prod.snd) = 0 then .error "ZeroDivisionError"
    else
      let cols_per_branch_unit : Rat :=
        ((drawing_width - fudge_margin : Int) : Rat) / pyMax (depths.map Prod.snd)
      .ok (depths.map (fun pb => (pb.1, pyInt (pb.2 * cols_per_branch_unit + 1))))

/-- Embedding of the initial `positions` dict of `get_row_positions` in
src/phyli.py, identical to the my_phylogeny.py variant. -/
def init_positions : List (TPath × Clade) → Nat → RowMap
  | [], _ => []
  | (p, _) :: rest, i => (p, 2 * i) :: init_positions rest (i + 1)

/- Embedding of `calc_row` from src/phyli.py (lines 46-52), identical to the
my_phylogeny.py variant. -/
mutual
def calc_row : Clade → TPath → RowMap → Except String RowMap
  | .mk _ _ _ cs, path, m =>
    match calc_rowL cs path 0 m with
    | .error e => .error e
    | .ok m1 =>
      match cs with
      | [] => .error "IndexError"
      | _ :: _ =>
        match alookup m1 (path ++ [0]), alookup m1 (path ++ [cs.length - 1]) with
        | some a, some b => .ok (dictSet m1 path ((a + b) / 2))
        | _, _ => .error "KeyError"
def calc_rowL : List Clade → TPath → Nat → RowMap → Except String RowMap
  | [], _, _, m => .ok m
  | c :: cs, path, i, m =>
    match
      (if (alookup m (path ++ [i])).isSome then .ok m
       else calc_row c (path ++ [i]) m : Except String RowMap) with
    | .error e => .error e
    | .ok m1 => calc_rowL cs path (i + 1) m1
end

/-- Embedding of `get_row_positions` from src/phyli.py (lines 41-55),
identical to the my_phylogeny.py variant. -/
def get_row_positions (tree : Clade) : Except String RowMap :=
  calc_row tree [] (init_positions (get_terminals tree []) 0)

/- Embedding of `add_to_elements` from src/phyli.py (lines 57-111),
identical to the my_phylogeny.py variant. -/
mutual
def add_to_elements (colp : List (TPath × Int)) (rowp : RowMap)
    (xlen ylen : Int) (grabbable : Bool) :
    Clade → TPath → List Char → Except String (List CyNode × List CyEdge)
  | .mk nm bl cf cs, path, clade_id =>
    match alookup colp path, alookup rowp path with
    | some col, some row =>
      let pos_x : Int := col * xlen
      let pos_y : Int := (row : Int) * ylen
      let cy_source : CyNode :=
        { id := clade_id, x := pos_x, y := pos_y
          classes := if cs.isEmpty then "terminal".data else "nonterminal".data
          grabbable := grabbable
          name := if cs.isEmpty then some nm else none
          confidence := confidence_attr cf cs }
      match add_childrenL colp rowp xlen ylen grabbable cs path clade_id pos_x bl 0 with
      | .error e => .error e
      | .ok (ns, es) => .ok (cy_source :: ns, es)
    | _, _ => .error "KeyError"
def add_childrenL (colp : List (TPath × Int)) (rowp : RowMap)
    (xlen ylen : Int) (grabbable : Bool) :
    List Clade → TPath → List Char → Int → Option Rat → Nat →
      Except String (List CyNode × List CyEdge)
  | [], _, _, _, _, _ => .ok ([], [])
  | child :: rest, path, clade_id, pos_x, parent_bl, n =>
    let support_id := clade_id ++ 's' :: natChars n
    let child_id := clade_id ++ 'c' :: natChars n
    match alookup rowp (path ++ [n]) with
    | none => .error "KeyError"
    | some rowc =>
      let cy_support_node : CyNode :=
        { id := support_id, x := pos_x, y := (rowc : Int) * ylen
          classes := "support".data, grabbable := grabbable
          name := none, confidence := none }
      let cy_support_edge : CyEdge :=
        { source := clade_id, target := support_id
          length := none, sourceCladeId := clade_id }
      let cy_edge : CyEdge :=
        { source := support_id, target := child_id
          length := some parent_bl, sourceCladeId := clade_id }
      match add_to_elements colp rowp xlen ylen grabbable child (path ++ [n]) child_id with
      | .error e => .error e
      | .ok (cns, ces) =>
        match add_childrenL colp rowp xlen ylen grabbable rest path clade_id pos_x
            parent_bl (n + 1) with
        | .error e => .error e
        | .ok (rns, res) =>
          .ok (cy_support_node :: (cns ++ rns),
               cy_support_edge :: cy_edge :: (ces ++ res))
end

/-- Embedding of `generate_elements` from src/phyli.py (lines 20-121) with its
default `column_width=80`, identical to the my_phylogeny.py variant. -/
def generate_elements (tree : Clade) (xlen ylen : Int) (grabbable : Bool) :
    Except String (List CyNode × List CyEdge) :=
  match get_col_positions tree 80 with
  | .error e => .error e
  | .ok colp =>
    match get_row_positions tree with
    | .error e => .error e
    | .ok rowp => add_to_elements colp rowp xlen ylen grabbable tree [] ['r']

end Phyli

/-- Values occurring in stylesheet style dicts (strings or numbers). -/
inductive StyleVal where
  | str (v : List Char)
  | int (v : Int)
deriving DecidableEq

/-- Structured model of the Cytoscape selector strings built by the program:
class selectors (".terminal" etc.), element selectors ("edge"), exact
name-attribute selectors (the Python f-string selector with "name =" and the
value quoted), substring name-attribute selectors ("name *="), and substring
edge-source selectors ("edge[source *=" with the value quoted). -/
inductive Selector where
  | cls (v : List Char)
  | elem (v : List Char)
  | nameEq (v : List Char)
  | nameContains (v : List Char)
  | edgeSourceContains (v : List Char)
deriving DecidableEq

/-- One stylesheet rule: a selector and a style dict. -/
structure StyleRule where
  selector : Selector
  style : List (List Char × StyleVal)
deriving DecidableEq

/-- Model of Cytoscape attribute-selector matching against a node whose data
dict has name attribute `nm`: an exact selector matches when the name equals
the value, a substring selector when the value occurs inside the name. -/
def selector_matches_name (sel : Selector) (nm : List Char) : Bool :=
  match sel with
  | .nameEq v => nm == v
  | .nameContains v => decide (v <:+: nm)
  | _ => false

/-- Python `s.split(sep)` for a one-character separator. -/
def pySplit (sep : Char) : List Char → List (List Char)
  | [] => [[]]
  | c :: rest =>
    match pySplit sep rest with
    | [] => [[]]
    | f :: fs => if c = sep then [] :: f :: fs else (c :: f) :: fs

namespace MyPhylogeny

/-- The four base stylesheet rules of src/my_phylogeny.py (lines 140-169). -/
def base_stylesheet : List StyleRule :=
  [{ selector := .cls "nonterminal".data
     style := [("label".data, .str "data(confidence)".data),
               ("background-opacity".data, .int 0),
               ("text-halign".data, .str "left".data),
               ("text-valign".data, .str "top".data)] },
   { selector := .cls "support".data
     style := [("background-opacity".data, .int 0)] },
   { selector := .elem "edge".data
     style := [("source-endpoint".data, .str "inside-to-node".data),
               ("target-endpoint".data, .str "inside-to-node".data)] },
   { selector := .cls "terminal".data
     style := [("label".data, .str "data(name)".data),
               ("width".data, .int 10),
               ("height".data, .int 10),
               ("text-valign".data, .str "center".data),
               ("text-halign".data, .str "right".data),
               ("background-color".data, .str "#222222".data)] }]

/-- The highlight override rule src/my_phylogeny.py appends per allow-list
entry (lines 172-184): an exact name-attribute selector on the raw entry. -/
def highlight_rule (nm : List Char) : StyleRule :=
  { selector := .nameEq nm
    style := [("background-color".data, .str "red".data),
              ("width".data, .int 15),
              ("height".data, .int 15),
              ("border-color".data, .str "black".data),
              ("border-width".data, .int 2)] }

/-- The `for name in highlight_names: stylesheet.append(...)` loop of
src/my_phylogeny.py as a function of the allow-list. -/
def stylesheet_for (names : List (List Char)) : List StyleRule :=
  names.foldl (fun st nm => st ++ [highlight_rule nm]) base_stylesheet

/-- The hard-coded allow-list of src/my_phylogeny.py (lines 137-138). -/
def highlight_names : List (List Char) :=
  ["_B/Yamagata/16/1988", "_B/Massachusetts/03/2010", "_B/Victoria/02/1987",
   "_A/turkey/Ireland/1378/1983 H5N8", "_A/barns wallow/Hong Kong/D10-1161/2010 H5N1",
   "_A/Indonesia/5/2005 H5N1", "_A/Anhui/1/2005 H5N1", "_A/yunnan/0127/2015 H5N6",
   "_A/bar-headed goose/Qinghai/14/2008 H5N1", "_A/chicken/VietNam/NCVD-016/2008 H5N1",
   "_A/mallard/Ohio/217/1998 H6N8", "_A/chicken/Guangdong/C273/2011 H6N2",
   "_A/chicken/Hong Kong/17/1977 H6N4", "_A/duck/Yangzhou/906/2002 H11N2",
   "_A/black-headed gull/Sweden/5/99 H16N3", "_A/shorebird/DE/261/2003 H9N5",
   "_A/duck/NZL/76/1984 H9N1", "_A/Hong Kong/3239/2008 H9N2",
   "_A/mallard duck/Alberta/342/1983 H12N1", "_A/flat-faced bat/Peru/033/2010 H18N11",
   "_A/Australian shelduck/Western Australia/1756/1983 H15N2",
   "_A/equine/Kentucky/1a/1975 H7N7", "_A/Netherlands/219/2003 H7N7",
   "_A/blue-winged teal/Louisiana/Sg-00073/2007 H10N7",
   "_A/Jiangxi-Donghu/346/2013 H10N8", "_A/equine/Gansu/7/2008 H3N8",
   "_A/Missouri/09/2014 H3N2", "A/mallard/Astrakhan/263/1982 H14N15"].map String.data

/-- The module-level `stylesheet` of src/my_phylogeny.py after the highlight
loop has run. -/
def stylesheet : List StyleRule := stylesheet_for highlight_names

/-- Embedding of the `color_children` callback (src/my_phylogeny.py lines
203-217): on a hovered edge, strip everything from the first "s" of the
source identifier, and append one rule highlighting edges whose source
contains the result; with no hover data, return the stylesheet unchanged. -/
def color_children (edgeData : Option CyEdge) : List StyleRule :=
  match edgeData with
  | none => stylesheet
  | some ed =>
    let val :=
      if 's' ∈ ed.source then (pySplit 's' ed.source).headD [] else ed.source
    let children_style : List StyleRule :=
      [{ selector := .edgeSourceContains val
         style := [("line-color".data, .str "blue".data)] }]
    stylesheet ++ children_style

end MyPhylogeny

namespace Phyli

/-- The four base stylesheet rules of src/phyli.py (lines 137-166), identical
to the my_phylogeny.py variant. -/
def base_stylesheet : List StyleRule :=
  [{ selector := .cls "nonterminal".data
     style := [("label".data, .str "data(confidence)".data),
               ("background-opacity".data, .int 0),
               ("text-halign".data, .str "left".data),
               ("text-valign".data, .str "top".data)] },
   { selector := .cls "support".data
     style := [("background-opacity".data, .int 0)] },
   { selector := .elem "edge".data
     style := [("source-endpoint".data, .str "inside-to-node".data),
               ("target-endpoint".data, .str "inside-to-node".data)] },
   { selector := .cls "terminal".data
     style := [("label".data, .str "data(name)".data),
               ("width".data, .int 10),
               ("height".data, .int 10),
               ("text-valign".data, .str "center".data),
               ("text-halign".data, .str "right".data),
               ("background-color".data, .str "#222222".data)] }]

/-- Python `name.replace(" ", "_")` used by the src/phyli.py highlight loop. -/
def escaped_name (nm : List Char) : List Char :=
  nm.map (fun ch => if ch = ' ' then '_' else ch)

/-- The highlight override rule src/phyli.py appends per allow-list entry
(lines 169-182): a substring name-attribute selector on the entry with
spaces replaced by underscores. -/
def highlight_rule (nm : List Char) : StyleRule :=
  { selector := .nameContains (escaped_name nm)
    style := [("background-color".data, .str "red".data),
              ("width".data, .int 15),
              ("height".data, .int 15),
              ("border-color".data, .str "black".data),
              ("border-width".data, .int 2)] }

/-- The `for name in highlight_names` loop of src/phyli.py as a function of
the allow-list. -/
def stylesheet_for (names : List (List Char)) : List StyleRule :=
  names.foldl (fun st nm => st ++ [highlight_rule nm]) base_stylesheet

end Phyli

mutual
def cladePaths : Clade → List TPath
  | .mk _ _ _ cs => [] :: cladePathsL cs 0
def cladePathsL : List Clade → Nat → List TPath
  | [], _ => []
  | c :: cs, i => (cladePaths c).map (i :: ·) ++ cladePathsL cs (i + 1)
end
mutual
def leafPaths : Clade → List TPath
  | .mk _ _ _ [] => [[]]
  | .mk _ _ _ (c :: cs) => leafPathsL (c :: cs) 0
def leafPathsL : List Clade → Nat → List TPath
  | [], _ => []
  | c :: cs, i => (leafPaths c).map (i :: ·) ++ leafPathsL cs (i + 1)
end
mutual
def relDepth : Bool → Clade → TPath → Rat
  | _, _, [] => 0
  | u, .mk _ _ _ cs, i :: q => relDepthL u cs i q
def relDepthL : Bool → List Clade → Nat → TPath → Rat
  | _, [], _, _ => 0
  | u, c :: _, 0, q => depth_of u c + relDepth u c q
  | u, _ :: cs, i + 1, q => relDepthL u cs i q
end
def relOff (u : Bool) (cs : List Clade) (i : Nat) : TPath → Rat
  | [] => 0
  | j :: q' => relDepthL u cs (j - i) q'
def leafOffD (cs : List Clade) (i : Nat) : TPath → Clade
  | [] => .mk none none none []
  | j :: q' => (subcladeAtL cs (j - i) q').getD (.mk none none none [])
def leafAtD (c : Clade) (q : TPath) : Clade :=
  (subcladeAt c q).getD (.mk none none none [])
def isLeafAt (c : Clade) (q : TPath) : Bool :=
  match subcladeAt c q with
  | some e => e.clades.isEmpty
  | none => false
def isInternalAt (c : Clade) (q : TPath) : Bool :=
  match subcladeAt c q with
  | some e => !e.clades.isEmpty
  | none => false
def childCountAt (c : Clade) (q : TPath) : Nat :=
  match subcladeAt c q with
  | some e => e.clades.length
  | none => 0
def rowRel (m : RowMap) (key : TPath) (len : Nat) : Prop :=
  ∃ a b, alookup m (key ++ [0]) = some a ∧ alookup m (key ++ [len - 1]) = some b ∧
    alookup m key = some ((a + b) / 2)
mutual
def idList : Clade → List Char → List (List Char)
  | .mk _ _ _ cs, cid => cid :: idListL cs cid 0
def idListL : List Clade → List Char → Nat → List (List Char)
  | [], _, _ => []
  | c :: cs, cid, n =>
    (cid ++ 's' :: natChars n) ::
      (idList c (cid ++ 'c' :: natChars n) ++ idListL cs cid (n + 1))
end
def isSupport (nd : CyNode) : Bool := nd.classes == "support".data
def digitsRec (n : Nat) : List Char :=
  if _h : n < 10 then [Nat.digitChar n]
  else digitsRec (n / 10) ++ [Nat.digitChar (n % 10)]
decreasing_by exact Nat.div_lt_self (by omega) (by omega)
def valOfDigits (l : List Char) (acc : Nat) : Nat :=
  l.foldl (fun a ch => 10 * a + (ch.toNat - 48)) acc
def headNondigit (s : List Char) : Prop :=
  ∀ c s', s = c :: s' → c.isDigit = false
mutual
def tailSet : Clade → List (List Char)
  | .mk _ _ _ cs => [] :: tailSetL cs 0
def tailSetL : List Clade → Nat → List (List Char)
  | [], _ => []
  | c :: cs, n =>
    ('s' :: natChars n) ::
      ((tailSet c).map (fun t => 'c' :: natChars n ++ t) ++ tailSetL cs (n + 1))
end
def blAt (t : Clade) (q : TPath) : Rat :=
  match subcladeAt t q with
  | some e => e.branch_length.getD 0
  | none => 0
def allNonnegBL (t : Clade) : Prop := ∀ q ∈ cladePaths t, 0 ≤ blAt t q
def specBlDepth (t : Clade) (q : TPath) : Rat :=
  t.branch_length.getD 0 + relDepth false t q
def specAllZero (t : Clade) : Prop := ∀ q ∈ cladePaths t, specBlDepth t q = 0
instance (t : Clade) : Decidable (specAllZero t) := by
  unfold specAllZero
  infer_instance
def specDepth (t : Clade) (q : TPath) : Rat :=
  if specAllZero t then (q.length : Rat) else specBlDepth t q
def specMaxDepth (t : Clade) : Rat := pyMax ((cladePaths t).map (specDepth t))
def specMaxLabelWidth (t : Clade) : Nat :=
  ((get_terminals t []).map (fun pc => (cladeStr pc.2).length)).foldl max 0
def specScale (t : Clade) : Rat :=
  ((80 - (specMaxLabelWidth t : Int) - 1 - (Nat.clog 2 (get_terminals t []).length : Int) : Int) : Rat)
    / specMaxDepth t
def monsterLeaf : Clade := .mk (some (List.replicate 40 'x')) (some 1) none []
def monsterN : Nat := 2 ^ 39 + 1
def monsterTree : Clade := .mk none none none (List.replicate monsterN monsterLeaf)
def monsterCols : List (TPath × Int) :=
  ([], 1) :: (List.range monsterN).map (fun j => ([j], 0))

/-- Sample leaf named "A" with no branch length. -/
def leafA : Clade := .mk (some "A".data) none none []

/-- Sample leaf named "B" with no branch length. -/
def leafB : Clade := .mk (some "B".data) none none []

/-- Sample leaf named "C" with no branch length. -/
def leafC : Clade := .mk (some "C".data) none none []

/-- Two-leaf tree (A,B) with no branch lengths. -/
def tree2 : Clade := .mk none none none [leafA, leafB]

/-- Balanced three-leaf tree ((A,B),C) with no branch lengths. -/
def tree3 : Clade := .mk none none none [.mk none none none [leafA, leafB], leafC]

/-- Degenerate single-leaf tree. -/
def leafSolo : Clade := .mk (some "X".data) none none []

/-- Two-leaf tree whose second leaf carries the negative branch length -1,
separating `int()` truncation from mathematical floor in the column
computation. -/
def treeC3 : Clade :=
  .mk none none none
    [.mk (some "A".data) (some 2) none [], .mk (some "B".data) (some (-1)) none []]

/-- Column table `get_col_positions` computes for `tree2` at width 80. -/
def colsTree2 : List (TPath × Int) := [([], 1), ([0], 78), ([1], 78)]

/-- Column table `get_col_positions` computes for `treeC3` at width 80: the
negative-depth leaf is truncated toward zero to -37 (its floor is -38). -/
def colsC3 : List (TPath × Int) := [([], 1), ([0], 78), ([1], -37)]

/-- Minimal column map covering only the root path. -/
def soloColMap : List (TPath × Int) := [([], 0)]

/-- Minimal row map covering only the root path. -/
def soloRowMap : RowMap := [([], 0)]

/-- The single drawable node `add_to_elements` emits for `leafA` under the
maps above. -/
def soloNodes : List CyNode :=
  [{ id := ['r'], x := 0, y := 0, classes := "terminal".data, grabbable := false,
     name := some (some "A".data), confidence := none }]

/-- All-zero column map for the three clades of `tree2`. -/
def zeroCols2 : List (TPath × Int) := [([], 0), ([0], 0), ([1], 0)]

/-- All-zero row map for the three clades of `tree2`. -/
def zeroRows2 : RowMap := [([], 0), ([0], 0), ([1], 0)]

/-- The five drawable nodes `add_to_elements` emits for `tree2` under the
all-zero maps: the root, and a support node plus a terminal node per child. -/
def nodesTree2 : List CyNode :=
  [{ id := ['r'], x := 0, y := 0, classes := "nonterminal".data, grabbable := false,
     name := none, confidence := none },
   { id := "rs0".data, x := 0, y := 0, classes := "support".data, grabbable := false,
     name := none, confidence := none },
   { id := "rc0".data, x := 0, y := 0, classes := "terminal".data, grabbable := false,
     name := some (some "A".data), confidence := none },
   { id := "rs1".data, x := 0, y := 0, classes := "support".data, grabbable := false,
     name := none, confidence := none },
   { id := "rc1".data, x := 0, y := 0, classes := "terminal".data, grabbable := false,
     name := some (some "B".data), confidence := none }]

/-- The four edges `add_to_elements` emits for `tree2`: parent-to-support and
support-to-child per child. -/
def edgesTree2 : List CyEdge :=
  [{ source := ['r'], target := "rs0".data, length := none, sourceCladeId := ['r'] },
   { source := "rs0".data, target := "rc0".data, length := some none, sourceCladeId := ['r'] },
   { source := ['r'], target := "rs1".data, length := none, sourceCladeId := ['r'] },
   { source := "rs1".data, target := "rc1".data, length := some none, sourceCladeId := ['r'] }]

theorem cladePathsL_head :
    ∀ (cs : List Clade) (i : Nat) (q : TPath), q ∈ cladePathsL cs i →
      ∃ j q', q = j :: q' ∧ i ≤ j := by
  intro cs
  induction cs with
  | nil => intro i q h; simp [cladePathsL] at h
  | cons c cs ih =>
    intro i q h
    simp only [cladePathsL, List.mem_append, List.mem_map] at h
    rcases h with ⟨q', _, rfl⟩ | h
    · exact ⟨i, q', rfl, le_refl i⟩
    · rcases ih (i + 1) q h with ⟨j, q', rfl, hj⟩
      exact ⟨j, q', rfl, by omega⟩
theorem leafPathsL_head :
    ∀ (cs : List Clade) (i : Nat) (q : TPath), q ∈ leafPathsL cs i →
      ∃ j q', q = j :: q' ∧ i ≤ j := by
  intro cs
  induction cs with
  | nil => intro i q h; simp [leafPathsL] at h
  | cons c cs ih =>
    intro i q h
    simp only [leafPathsL, List.mem_append, List.mem_map] at h
    rcases h with ⟨q', _, rfl⟩ | h
    · exact ⟨i, q', rfl, le_refl i⟩
    · rcases ih (i + 1) q h with ⟨j, q', rfl, hj⟩
      exact ⟨j, q', rfl, by omega⟩
mutual
theorem update_depths_eq : ∀ (u : Bool) (c : Clade) (path : TPath) (d : Rat),
    update_depths u c path d =
      (cladePaths c).map (fun q => (path ++ q, d + relDepth u c q))
  | u, .mk nm bl cf cs, path, d => by
    rw [update_depths, update_depthsL_eq u cs 0 path d, cladePaths, List.map_cons]
    congr 1
    · simp [relDepth]
    · refine List.map_congr_left ?_
      intro q hq
      rcases cladePathsL_head cs 0 q hq with ⟨j, q', rfl, _⟩
      simp only [relOff, relDepth, Nat.sub_zero]
termination_by _ c _ _ => sizeOf c
theorem update_depthsL_eq : ∀ (u : Bool) (cs : List Clade) (i : Nat) (path : TPath) (d : Rat),
    update_depthsL u cs path i d =
      (cladePathsL cs i).map (fun q => (path ++ q, d + relOff u cs i q))
  | _, [], _, _, _ => by simp [update_depthsL, cladePathsL]
  | u, c :: cs, i, path, d => by
    rw [update_depthsL, cladePathsL, List.map_append, List.map_map,
      update_depths_eq u c (path ++ [i]) (d + depth_of u c),
      update_depthsL_eq u cs (i + 1) path d]
    refine congrArg₂ _ (List.map_congr_left ?_) (List.map_congr_left ?_)
    · intro q _
      simp only [Function.comp_apply, relOff, Nat.sub_self, relDepthL,
        List.append_assoc, List.singleton_append, add_assoc]
    · intro q hq
      rcases cladePathsL_head cs (i + 1) q hq with ⟨j, q', rfl, hj⟩
      have hji : j - i = (j - (i + 1)) + 1 := by omega
      simp only [relOff, hji, relDepthL]
termination_by _ cs _ _ _ => sizeOf cs
end
mutual
theorem get_terminals_eq : ∀ (c : Clade) (path : TPath),
    get_terminals c path = (leafPaths c).map (fun q => (path ++ q, leafAtD c q))
  | .mk nm bl cf [], path => by
    simp [get_terminals, leafPaths, leafAtD, subcladeAt]
  | .mk nm bl cf (c :: cs), path => by
    rw [get_terminals, leafPaths, get_terminalsL_eq (c :: cs) 0 path]
    refine List.map_congr_left ?_
    intro q hq
    rcases leafPathsL_head (c :: cs) 0 q hq with ⟨j, q', rfl, _⟩
    simp only [leafOffD, leafAtD, Nat.sub_zero, subcladeAt]
termination_by c _ => sizeOf c
theorem get_terminalsL_eq : ∀ (cs : List Clade) (i : Nat) (path : TPath),
    get_terminalsL cs path i = (leafPathsL cs i).map (fun q => (path ++ q, leafOffD cs i q))
  | [], _, _ => by simp [get_terminalsL, leafPathsL]
  | c :: cs, i, path => by
    rw [get_terminalsL, leafPathsL, List.map_append, List.map_map,
      get_terminals_eq c (path ++ [i]), get_terminalsL_eq cs (i + 1) path]
    refine congrArg₂ _ (List.map_congr_left ?_) (List.map_congr_left ?_)
    · intro q _
      simp only [Function.comp_apply, leafOffD, leafAtD, Nat.sub_self, subcladeAtL,
        List.append_assoc, List.singleton_append]
    · intro q hq
      rcases leafPathsL_head cs (i + 1) q hq with ⟨j, q', rfl, hj⟩
      have hji : j - i = (j - (i + 1)) + 1 := by omega
      simp only [leafOffD, hji, subcladeAtL]
termination_by cs _ _ => sizeOf cs
end
mutual
theorem mem_cladePaths : ∀ (c : Clade) (q : TPath),
    q ∈ cladePaths c ↔ (subcladeAt c q).isSome
  | .mk nm bl cf cs, q => by
    cases q with
    | nil => simp [cladePaths, subcladeAt]
    | cons j q' =>
      rw [cladePaths, subcladeAt]
      have := mem_cladePathsL cs 0 j q'
      simp only [Nat.zero_add] at this
      simp [this]
termination_by c _ => sizeOf c
theorem mem_cladePathsL : ∀ (cs : List Clade) (i j : Nat) (q : TPath),
    ((i + j) :: q) ∈ cladePathsL cs i ↔ (subcladeAtL cs j q).isSome
  | [], i, j, q => by simp [cladePathsL, subcladeAtL]
  | c :: cs, i, j, q => by
    rw [cladePathsL]
    cases j with
    | zero =>
      rw [subcladeAtL]
      simp only [List.mem_append, List.mem_map, Nat.add_zero]
      constructor
      · rintro (⟨q0, hq0, heq⟩ | h)
        · have hq0q : q0 = q := (List.cons.injEq _ _ _ _ ▸ heq).2
          subst hq0q
          exact (mem_cladePaths c q0).mp hq0
        · rcases cladePathsL_head cs (i + 1) _ h with ⟨j', q'', heq, hj⟩
          cases heq; omega
      · intro h
        exact Or.inl ⟨q, (mem_cladePaths c q).mpr h, rfl⟩
    | succ j' =>
      rw [subcladeAtL]
      simp only [List.mem_append, List.mem_map]
      constructor
      · rintro (⟨q0, _, heq⟩ | h)
        · exfalso
          have := (List.cons.injEq _ _ _ _ ▸ heq).1
          omega
        · have hre : (i + (j' + 1)) = ((i + 1) + j') := by omega
          rw [hre] at h
          exact (mem_cladePathsL cs (i + 1) j' q).mp h
      · intro h
        refine Or.inr ?_
        have hre : (i + (j' + 1)) = ((i + 1) + j') := by omega
        rw [hre]
        exact (mem_cladePathsL cs (i + 1) j' q).mpr h
termination_by cs _ _ _ => sizeOf cs
end
mutual
theorem cladePaths_nodup : ∀ c : Clade, (cladePaths c).Nodup
  | .mk nm bl cf cs => by
    rw [cladePaths]
    refine List.nodup_cons.mpr ⟨?_, cladePathsL_nodup cs 0⟩
    intro h
    rcases cladePathsL_head cs 0 _ h with ⟨j, q', heq, _⟩
    exact List.noConfusion heq
termination_by c => sizeOf c
theorem cladePathsL_nodup : ∀ (cs : List Clade) (i : Nat), (cladePathsL cs i).Nodup
  | [], _ => by simp [cladePathsL]
  | c :: cs, i => by
    rw [cladePathsL]
    refine List.Nodup.append ?_ (cladePathsL_nodup cs (i + 1)) ?_
    · exact (cladePaths_nodup c).map (fun a b h => (List.cons.injEq _ _ _ _ ▸ h).2)
    · intro q hq1 hq2
      rcases List.mem_map.mp hq1 with ⟨q0, _, rfl⟩
      rcases cladePathsL_head cs (i + 1) _ hq2 with ⟨j, q', heq, hj⟩
      have := (List.cons.injEq _ _ _ _ ▸ heq).1
      omega
termination_by cs _ => sizeOf cs
end
mutual
theorem leafPaths_nodup : ∀ c : Clade, (leafPaths c).Nodup
  | .mk nm bl cf [] => by simp [leafPaths]
  | .mk nm bl cf (c :: cs) => by
    rw [leafPaths]
    exact leafPathsL_nodup (c :: cs) 0
termination_by c => sizeOf c
theorem leafPathsL_nodup : ∀ (cs : List Clade) (i : Nat), (leafPathsL cs i).Nodup
  | [], _ => by simp [leafPathsL]
  | c :: cs, i => by
    rw [leafPathsL]
    refine List.Nodup.append ?_ (leafPathsL_nodup cs (i + 1)) ?_
    · exact (leafPaths_nodup c).map (fun a b h => (List.cons.injEq _ _ _ _ ▸ h).2)
    · intro q hq1 hq2
      rcases List.mem_map.mp hq1 with ⟨q0, _, rfl⟩
      rcases leafPathsL_head cs (i + 1) _ hq2 with ⟨j, q', heq, hj⟩
      have := (List.cons.injEq _ _ _ _ ▸ heq).1
      omega
termination_by cs _ => sizeOf cs
end
theorem alookup_graph {α : Type} (f : TPath → α) (path : TPath) :
    ∀ (paths : List TPath) (q : TPath), q ∈ paths →
      alookup (paths.map (fun p => (path ++ p, f p))) (path ++ q) = some (f q) := by
  intro paths
  induction paths with
  | nil => intro q h; simp at h
  | cons p0 ps ih =>
    intro q hq
    rw [List.map_cons, alookup]
    by_cases h : path ++ q = path ++ p0
    · have : q = p0 := List.append_cancel_left h
      subst this
      simp
    · rw [if_neg h]
      have : q ∈ ps := by
        rcases List.mem_cons.mp hq with rfl | h'
        · exact absurd rfl h
        · exact h'
      exact ih q this
theorem alookup_append {α : Type} :
    ∀ (m1 m2 : List (TPath × α)) (k : TPath),
      alookup (m1 ++ m2) k =
        match alookup m1 k with
        | some v => some v
        | none => alookup m2 k := by
  intro m1
  induction m1 with
  | nil => intro m2 k; simp [alookup]
  | cons kv m1 ih =>
    intro m2 k
    rcases kv with ⟨k0, v0⟩
    rw [List.cons_append, alookup, alookup]
    by_cases h : k = k0
    · simp [h]
    · rw [if_neg h, if_neg h, ih]
mutual
theorem relDepth_append : ∀ (u : Bool) (c : Clade) (q : TPath) (e : Clade),
    subcladeAt c q = some e →
      ∀ q2, relDepth u c (q ++ q2) = relDepth u c q + relDepth u e q2
  | u, c, [], e, h, q2 => by
    rw [subcladeAt] at h
    cases h
    simp [relDepth]
  | u, .mk nm bl cf cs, j :: q', e, h, q2 => by
    rw [subcladeAt] at h
    rw [List.cons_append, relDepth, relDepth,
      relDepthL_append u cs j q' e h q2]
termination_by _ c q => sizeOf c + q.length
theorem relDepthL_append : ∀ (u : Bool) (cs : List Clade) (j : Nat) (q : TPath) (e : Clade),
    subcladeAtL cs j q = some e →
      ∀ q2, relDepthL u cs j (q ++ q2) = relDepthL u cs j q + relDepth u e q2
  | u, [], j, q, e, h, q2 => by rw [subcladeAtL] at h; cases h
  | u, c :: cs, 0, q, e, h, q2 => by
    rw [subcladeAtL] at h
    rw [relDepthL, relDepthL, relDepth_append u c q e h q2, add_assoc]
  | u, c :: cs, j + 1, q, e, h, q2 => by
    rw [subcladeAtL] at h
    rw [relDepthL, relDepthL, relDepthL_append u cs j q e h q2]
termination_by _ cs _ q => sizeOf cs + q.length
end
theorem subcladeAtL_get : ∀ (cs : List Clade) (j : Nat) (q : TPath),
    subcladeAtL cs j q = (cs.get? j).bind fun e => subcladeAt e q := by
  intro cs
  induction cs with
  | nil => intro j q; cases j <;> simp [subcladeAtL]
  | cons c cs ih =>
    intro j q
    cases j with
    | zero => simp [subcladeAtL]
    | succ j => simp [subcladeAtL, ih j q]
theorem isLeafAt_nil (nm bl cf cs) :
    isLeafAt (.mk nm bl cf cs) [] = cs.isEmpty := by
  simp [isLeafAt, subcladeAt, Clade.clades]
theorem isInternalAt_nil (nm bl cf cs) :
    isInternalAt (.mk nm bl cf cs) [] = !cs.isEmpty := by
  simp [isInternalAt, subcladeAt, Clade.clades]
theorem isLeafAt_cons (nm bl cf cs j q) :
    isLeafAt (.mk nm bl cf cs) (j :: q) =
      match cs.get? j with
      | some e => isLeafAt e q
      | none => false := by
  rw [isLeafAt, subcladeAt, subcladeAtL_get]
  cases h : cs.get? j with
  | none => simp
  | some e => simp [isLeafAt]
theorem isInternalAt_cons (nm bl cf cs j q) :
    isInternalAt (.mk nm bl cf cs) (j :: q) =
      match cs.get? j with
      | some e => isInternalAt e q
      | none => false := by
  rw [isInternalAt, subcladeAt, subcladeAtL_get]
  cases h : cs.get? j with
  | none => simp
  | some e => simp [isInternalAt]
theorem childCountAt_cons (nm bl cf cs j q) :
    childCountAt (.mk nm bl cf cs) (j :: q) =
      match cs.get? j with
      | some e => childCountAt e q
      | none => 0 := by
  rw [childCountAt, subcladeAt, subcladeAtL_get]
  cases h : cs.get? j with
  | none => simp
  | some e => simp [childCountAt]
theorem leaf_no_internal (nm bl cf q) :
    isInternalAt (.mk nm bl cf []) q = false := by
  cases q with
  | nil => simp [isInternalAt_nil]
  | cons j q => rw [isInternalAt_cons]; cases j <;> simp
theorem alookup_append_left {α : Type} {m m2 : List (TPath × α)} {p : TPath} {v : α}
    (h : alookup m p = some v) : alookup (m ++ m2) p = some v := by
  rw [alookup_append, h]
theorem alookup_append_right {α : Type} {m m2 : List (TPath × α)} {p : TPath}
    (h : alookup m p = none) : alookup (m ++ m2) p = alookup m2 p := by
  rw [alookup_append, h]
theorem alookup_single {α : Type} (k p : TPath) (v : α) :
    alookup [(k, v)] p = if p = k then some v else none := by
  rw [alookup]
  split <;> simp [alookup]
theorem append_cons_inj {path q q' : TPath} {a b : Nat} :
    path ++ a :: q = path ++ b :: q' ↔ a = b ∧ q = q' := by
  constructor
  · intro h
    have := List.append_cancel_left h
    exact ⟨(List.cons.injEq _ _ _ _ ▸ this).1, (List.cons.injEq _ _ _ _ ▸ this).2⟩
  · rintro ⟨rfl, rfl⟩; rfl
theorem ne_append_cons (path : TPath) (a : Nat) (q : TPath) :
    path ≠ path ++ a :: q := by
  intro h
  have := congrArg List.length h
  simp at this
theorem append_singleton_append (path : TPath) (i : Nat) (q : TPath) :
    (path ++ [i]) ++ q = path ++ i :: q := by
  simp
theorem isLeafAt_nil_eq (e : Clade) : isLeafAt e [] = e.clades.isEmpty := by
  rw [isLeafAt, subcladeAt]
theorem isInternalAt_nil_eq (e : Clade) : isInternalAt e [] = !e.clades.isEmpty := by
  rw [isInternalAt, subcladeAt]
theorem childCountAt_nil (e : Clade) : childCountAt e [] = e.clades.length := by
  rw [childCountAt, subcladeAt]
theorem no_internal_of_leaf {e : Clade} (h : e.clades.isEmpty) (q : TPath) :
    isInternalAt e q = false := by
  cases e with
  | mk nm bl cf cs =>
    have : cs = [] := by simpa [Clade.clades] using h
    subst this
    exact leaf_no_internal nm bl cf q
theorem dictSet_fresh {α : Type} {m : List (TPath × α)} {k : TPath} (v : α)
    (h : alookup m k = none) : dictSet m k v = m ++ [(k, v)] := by
  rw [dictSet, h]
  simp
theorem alookup_snoc_ne {α : Type} {m : List (TPath × α)} {k p : TPath} {v : α}
    (h : p ≠ k) : alookup (m ++ [(k, v)]) p = alookup m p := by
  rw [alookup_append]
  cases hm : alookup m p with
  | some w => rfl
  | none => simp [alookup_single, h]
theorem alookup_snoc_self {α : Type} {m : List (TPath × α)} {k : TPath} {v : α}
    (h : alookup m k = none) : alookup (m ++ [(k, v)]) k = some v := by
  rw [alookup_append, h]
  simp [alookup_single]
theorem isSome_snoc {α : Type} (m : List (TPath × α)) (k p : TPath) (v : α) :
    (alookup (m ++ [(k, v)]) p).isSome ↔ (alookup m p).isSome ∨ p = k := by
  rw [alookup_append]
  cases hm : alookup m p with
  | some w => simp
  | none => by_cases h : p = k <;> simp [alookup_single, h]
theorem internal_bridge (nm bl cf) (cs : List Clade) (hne : cs ≠ []) (q : TPath) :
    isInternalAt (.mk nm bl cf cs) q = true ↔
      (q = [] ∨ ∃ j e q', cs.get? j = some e ∧ isInternalAt e q' = true ∧ q = j :: q') := by
  cases q with
  | nil =>
    rw [isInternalAt_nil]
    simp [List.isEmpty_iff, hne]
  | cons j q' =>
    rw [isInternalAt_cons]
    cases hj : cs.get? j with
    | none =>
      constructor
      · intro h
        simp at h
      · intro h
        exfalso
        rcases h with h | ⟨j2, e2, q2, hj2, _, heq⟩
        · exact List.cons_ne_nil _ _ h
        · obtain ⟨rfl, rfl⟩ : j2 = j ∧ q2 = q' := by
            have h1 := (List.cons.injEq _ _ _ _ ▸ heq.symm)
            exact ⟨h1.1, h1.2⟩
          rw [hj] at hj2
          exact Option.noConfusion hj2
    | some e =>
      constructor
      · intro h
        exact Or.inr ⟨j, e, q', hj, h, rfl⟩
      · intro h
        rcases h with h | ⟨j2, e2, q2, hj2, hint2, heq⟩
        · exact absurd h (List.cons_ne_nil _ _)
        · obtain ⟨rfl, rfl⟩ : j2 = j ∧ q2 = q' := by
            have h1 := (List.cons.injEq _ _ _ _ ▸ heq.symm)
            exact ⟨h1.1, h1.2⟩
          rw [hj] at hj2
          cases hj2
          exact hint2
theorem rowRel_snoc {m : RowMap} {k : TPath} {v : Nat} {key : TPath} {len : Nat}
    (h : rowRel m key len) (h1 : key ≠ k) (h2 : key ++ [0] ≠ k)
    (h3 : key ++ [len - 1] ≠ k) : rowRel (m ++ [(k, v)]) key len := by
  obtain ⟨a, b, ha, hb, hk⟩ := h
  exact ⟨a, b, by rw [alookup_snoc_ne h2]; exact ha,
    by rw [alookup_snoc_ne h3]; exact hb,
    by rw [alookup_snoc_ne h1]; exact hk⟩
theorem rowRel_of_lookup_eq {m m' : RowMap} {key : TPath} {len : Nat}
    (h : rowRel m key len)
    (h1 : alookup m' (key ++ [0]) = alookup m (key ++ [0]))
    (h2 : alookup m' (key ++ [len - 1]) = alookup m (key ++ [len - 1]))
    (h3 : alookup m' key = alookup m key) : rowRel m' key len := by
  obtain ⟨a, b, ha, hb, hk⟩ := h
  exact ⟨a, b, by rw [h1]; exact ha, by rw [h2]; exact hb, by rw [h3]; exact hk⟩
mutual
theorem calc_row_spec : ∀ (c : Clade) (path : TPath) (m : RowMap),
    (∀ q, isLeafAt c q = true → (alookup m (path ++ q)).isSome = true) →
    (∀ q, isInternalAt c q = true → alookup m (path ++ q) = none) →
    c.clades ≠ [] →
    ∃ m', MyPhylogeny.calc_row c path m = .ok m' ∧
      (∀ p, (∀ q, isInternalAt c q = true → p ≠ path ++ q) → alookup m' p = alookup m p) ∧
      (∀ q, isInternalAt c q = true → rowRel m' (path ++ q) (childCountAt c q)) ∧
      (∀ p, (alookup m' p).isSome = true ↔
        ((alookup m p).isSome = true ∨ ∃ q, isInternalAt c q = true ∧ p = path ++ q))
  | .mk nm bl cf cs, path, m, Hl, Hf, hne => by
    have hne' : cs ≠ [] := by simpa [Clade.clades] using hne
    have HlL : ∀ j e q, cs.get? j = some e → isLeafAt e q = true →
        (alookup m (path ++ (0 + j) :: q)).isSome = true := by
      intro j e q hj hleaf
      have h1 : isLeafAt (Clade.mk nm bl cf cs) (j :: q) = true := by
        rw [isLeafAt_cons, hj]
        exact hleaf
      have := Hl _ h1
      simpa [Nat.zero_add] using this
    have HfL : ∀ j e q, cs.get? j = some e → isInternalAt e q = true →
        alookup m (path ++ (0 + j) :: q) = none := by
      intro j e q hj hint
      have h1 : isInternalAt (Clade.mk nm bl cf cs) (j :: q) = true := by
        rw [isInternalAt_cons, hj]
        exact hint
      have := Hf _ h1
      simpa [Nat.zero_add] using this
    obtain ⟨m1, hrun, hpres, hmid, hdom⟩ := calc_rowL_spec cs path 0 m HlL HfL
    have hintnil : isInternalAt (Clade.mk nm bl cf cs) [] = true := by
      rw [isInternalAt_nil]
      simp [List.isEmpty_iff, hne']
    have hparent_m : alookup m path = none := by
      have := Hf [] hintnil
      simpa using this
    have hparent1 : alookup m1 path = none := by
      have h2 : alookup m1 path = alookup m path := by
        refine hpres path ?_
        intro j e q hj hint heq
        exact ne_append_cons path _ _ heq
      rw [h2, hparent_m]
    have child_lookup : ∀ j e, cs.get? j = some e →
        ∃ a, alookup m1 (path ++ [j]) = some a := by
      intro j e hj
      by_cases hterm : e.clades.isEmpty
      · have hleafSome : (alookup m (path ++ [j])).isSome = true := by
          have := HlL j e [] hj (by rw [isLeafAt_nil_eq]; exact hterm)
          simpa [Nat.zero_add] using this
        have hpr : alookup m1 (path ++ [j]) = alookup m (path ++ [j]) := by
          refine hpres _ ?_
          intro j' e' q' hj' hint' heq
          have h2 : j = 0 + j' ∧ ([] : TPath) = q' := append_cons_inj.mp heq
          obtain ⟨hjj, hqq⟩ := h2
          have hj'j : j' = j := by omega
          subst hj'j
          rw [hj] at hj'
          cases hj'
          rw [← hqq] at hint'
          rw [no_internal_of_leaf hterm] at hint'
          exact Bool.noConfusion hint'
        rw [hpr]
        exact Option.isSome_iff_exists.mp hleafSome
      · have hint : isInternalAt e [] = true := by
          rw [isInternalAt_nil_eq]
          simp [hterm]
        obtain ⟨a, b, _, _, h3⟩ := hmid j e [] hj hint
        refine ⟨(a + b) / 2, ?_⟩
        simpa [Nat.zero_add] using h3
    obtain ⟨c0, hc0⟩ : ∃ c0, cs.get? 0 = some c0 := by
      cases cs with
      | nil => exact absurd rfl hne'
      | cons c0 rest => exact ⟨c0, rfl⟩
    obtain ⟨clast, hclast⟩ : ∃ e, cs.get? (cs.length - 1) = some e := by
      have hlt : cs.length - 1 < cs.length := by
        have : cs.length ≠ 0 := by simpa [List.length_eq_zero] using hne'
        omega
      rw [List.get?_eq_get hlt]
      exact ⟨_, rfl⟩
    obtain ⟨a, ha⟩ := child_lookup 0 c0 hc0
    obtain ⟨b, hb⟩ := child_lookup (cs.length - 1) clast hclast
    have hset : dictSet m1 path ((a + b) / 2) = m1 ++ [(path, (a + b) / 2)] :=
      dictSet_fresh _ hparent1
    refine ⟨m1 ++ [(path, (a + b) / 2)], ?_, ?_, ?_, ?_⟩
    · rw [MyPhylogeny.calc_row, hrun]
      cases cs with
      | nil => exact absurd rfl hne'
      | cons c0' rest' =>
        simp only [ha, hb]
        rw [hset]
    · intro p hp
      have hppath : p ≠ path := fun h => hp [] hintnil (by simpa using h)
      rw [alookup_snoc_ne hppath]
      refine hpres p ?_
      intro j e q hj hint heq
      refine hp (j :: q) ?_ (by simpa [Nat.zero_add] using heq)
      rw [isInternalAt_cons, hj]
      exact hint
    · intro q hq
      rcases (internal_bridge nm bl cf cs hne' q).mp hq with rfl | ⟨j, e, q', hj, hint, rfl⟩
      · refine ⟨a, b, ?_, ?_, ?_⟩
        · rw [List.append_nil, alookup_snoc_ne (Ne.symm (ne_append_cons path 0 []))]
          exact ha
        · rw [List.append_nil, childCountAt_nil]
          simp only [Clade.clades]
          rw [alookup_snoc_ne (Ne.symm (ne_append_cons path (cs.length - 1) []))]
          exact hb
        · rw [List.append_nil]
          exact alookup_snoc_self hparent1
      · have hmid1 := hmid j e q' hj hint
        simp only [Nat.zero_add] at hmid1
        have hcc : childCountAt (Clade.mk nm bl cf cs) (j :: q') = childCountAt e q' := by
          rw [childCountAt_cons, hj]
        rw [hcc]
        refine rowRel_snoc hmid1 ?_ ?_ ?_
        · exact Ne.symm (ne_append_cons path _ _)
        · rw [show (path ++ j :: q') ++ [0] = path ++ j :: (q' ++ [0]) by simp]
          exact Ne.symm (ne_append_cons path _ _)
        · rw [show (path ++ j :: q') ++ [childCountAt e q' - 1]
              = path ++ j :: (q' ++ [childCountAt e q' - 1]) by simp]
          exact Ne.symm (ne_append_cons path _ _)
    · intro p
      rw [isSome_snoc, hdom p]
      constructor
      · rintro ((h | ⟨j, e, q, hj, hint, rfl⟩) | rfl)
        · exact Or.inl h
        · refine Or.inr ⟨j :: q, ?_, by simp⟩
          rw [isInternalAt_cons, hj]
          exact hint
        · exact Or.inr ⟨[], hintnil, by simp⟩
      · rintro (h | ⟨q, hq, rfl⟩)
        · exact Or.inl (Or.inl h)
        · rcases (internal_bridge nm bl cf cs hne' q).mp hq with rfl | ⟨j, e, q', hj, hint, rfl⟩
          · exact Or.inr (by simp)
          · exact Or.inl (Or.inr ⟨j, e, q', hj, hint, by simp⟩)
termination_by c _ _ => sizeOf c
theorem calc_rowL_spec : ∀ (cs : List Clade) (path : TPath) (i : Nat) (m : RowMap),
    (∀ j e q, cs.get? j = some e → isLeafAt e q = true →
      (alookup m (path ++ (i + j) :: q)).isSome = true) →
    (∀ j e q, cs.get? j = some e → isInternalAt e q = true →
      alookup m (path ++ (i + j) :: q) = none) →
    ∃ m', MyPhylogeny.calc_rowL cs path i m = .ok m' ∧
      (∀ p, (∀ j e q, cs.get? j = some e → isInternalAt e q = true →
          p ≠ path ++ (i + j) :: q) →
        alookup m' p = alookup m p) ∧
      (∀ j e q, cs.get? j = some e → isInternalAt e q = true →
        rowRel m' (path ++ (i + j) :: q) (childCountAt e q)) ∧
      (∀ p, (alookup m' p).isSome = true ↔
        ((alookup m p).isSome = true ∨
          ∃ j e q, cs.get? j = some e ∧ isInternalAt e q = true ∧ p = path ++ (i + j) :: q))
  | [], path, i, m, Hl, Hf => by
    refine ⟨m, by rw [MyPhylogeny.calc_rowL], fun p _ => rfl, ?_, ?_⟩
    · intro j e q hj
      simp at hj
    · intro p
      simp
  | c0 :: rest, path, i, m, Hl, Hf => by
    have step2 : ∀ (mA : RowMap),
        (∀ p, (∀ q, isInternalAt c0 q = true → p ≠ path ++ i :: q) →
          alookup mA p = alookup m p) →
        (∀ j e q, rest.get? j = some e → isLeafAt e q = true →
          (alookup mA (path ++ ((i + 1) + j) :: q)).isSome = true) ∧
        (∀ j e q, rest.get? j = some e → isInternalAt e q = true →
          alookup mA (path ++ ((i + 1) + j) :: q) = none) := by
      intro mA hpresA
      constructor
      · intro j e q hj hleaf
        have hm := Hl (j + 1) e q (by simpa using hj) hleaf
        have heqk : (i + (j + 1)) = ((i + 1) + j) := by omega
        rw [heqk] at hm
        have : alookup mA (path ++ ((i + 1) + j) :: q) =
            alookup m (path ++ ((i + 1) + j) :: q) := by
          refine hpresA _ ?_
          intro q' hint' heq
          have h2 := append_cons_inj.mp heq
          omega
        rw [this]
        exact hm
      · intro j e q hj hint
        have hm := Hf (j + 1) e q (by simpa using hj) hint
        have heqk : (i + (j + 1)) = ((i + 1) + j) := by omega
        rw [heqk] at hm
        have : alookup mA (path ++ ((i + 1) + j) :: q) =
            alookup m (path ++ ((i + 1) + j) :: q) := by
          refine hpresA _ ?_
          intro q' hint' heq
          have h2 := append_cons_inj.mp heq
          omega
        rw [this]
        exact hm
    by_cases hterm : c0.clades.isEmpty
    · have hsome : (alookup m (path ++ [i])).isSome = true := by
        have := Hl 0 c0 [] rfl (by rw [isLeafAt_nil_eq]; exact hterm)
        simpa using this
      obtain ⟨Hl', Hf'⟩ := step2 m (fun p _ => rfl)
      obtain ⟨m2, hrun2, hpres2, hmid2, hdom2⟩ := calc_rowL_spec rest path (i + 1) m Hl' Hf'
      refine ⟨m2, ?_, ?_, ?_, ?_⟩
      · rw [MyPhylogeny.calc_rowL, if_pos hsome]
        exact hrun2
      · intro p hp
        refine hpres2 p ?_
        intro j e q hj hint heq
        refine hp (j + 1) e q (by simpa using hj) hint ?_
        rw [show (i + (j + 1)) = ((i + 1) + j) by omega]
        exact heq
      · intro j e q hj hint
        cases j with
        | zero =>
          exfalso
          have : c0 = e := by simpa using hj
          subst this
          rw [no_internal_of_leaf hterm] at hint
          exact Bool.noConfusion hint
        | succ j' =>
          have := hmid2 j' e q (by simpa using hj) hint
          rw [show (i + (j' + 1)) = ((i + 1) + j') by omega]
          exact this
      · intro p
        rw [hdom2 p]
        constructor
        · rintro (h | ⟨j, e, q, hj, hint, rfl⟩)
          · exact Or.inl h
          · exact Or.inr ⟨j + 1, e, q, by simpa using hj, hint,
              by rw [show (i + (j + 1)) = ((i + 1) + j) by omega]⟩
        · rintro (h | ⟨j, e, q, hj, hint, rfl⟩)
          · exact Or.inl h
          · cases j with
            | zero =>
              exfalso
              have : c0 = e := by simpa using hj
              subst this
              rw [no_internal_of_leaf hterm] at hint
              exact Bool.noConfusion hint
            | succ j' =>
              exact Or.inr ⟨j', e, q, by simpa using hj, hint,
                by rw [show ((i + 1) + j') = (i + (j' + 1)) by omega]⟩
    · have hnone : alookup m (path ++ [i]) = none := by
        have hint0 : isInternalAt c0 [] = true := by
          rw [isInternalAt_nil_eq]
          simp [hterm]
        have := Hf 0 c0 [] rfl hint0
        simpa using this
      have hnotsome : (alookup m (path ++ [i])).isSome = false := by
        rw [hnone]; rfl
      have Hl0 : ∀ q, isLeafAt c0 q = true →
          (alookup m ((path ++ [i]) ++ q)).isSome = true := by
        intro q hq
        have := Hl 0 c0 q rfl hq
        rw [append_singleton_append]
        simpa using this
      have Hf0 : ∀ q, isInternalAt c0 q = true →
          alookup m ((path ++ [i]) ++ q) = none := by
        intro q hq
        have := Hf 0 c0 q rfl hq
        rw [append_singleton_append]
        simpa using this
      have hne0 : c0.clades ≠ [] := by
        intro h
        rw [h] at hterm
        exact hterm rfl
      obtain ⟨mA, hrunA, hpresA, hmidA, hdomA⟩ := calc_row_spec c0 (path ++ [i]) m Hl0 Hf0 hne0
      have hpresA' : ∀ p, (∀ q, isInternalAt c0 q = true → p ≠ path ++ i :: q) →
          alookup mA p = alookup m p := by
        intro p hp
        refine hpresA p ?_
        intro q hq heq
        exact hp q hq (by rw [← append_singleton_append]; exact heq)
      obtain ⟨Hl', Hf'⟩ := step2 mA hpresA'
      obtain ⟨m2, hrun2, hpres2, hmid2, hdom2⟩ := calc_rowL_spec rest path (i + 1) mA Hl' Hf'
      refine ⟨m2, ?_, ?_, ?_, ?_⟩
      · rw [MyPhylogeny.calc_rowL, if_neg (by rw [hnotsome]; exact Bool.false_ne_true), hrunA]
        exact hrun2
      · intro p hp
        have h1 : alookup m2 p = alookup mA p := by
          refine hpres2 p ?_
          intro j e q hj hint heq
          refine hp (j + 1) e q (by simpa using hj) hint ?_
          rw [show (i + (j + 1)) = ((i + 1) + j) by omega]
          exact heq
        rw [h1]
        refine hpresA' p ?_
        intro q hq heq
        exact hp 0 c0 q rfl hq (by simpa using heq)
      · intro j e q hj hint
        cases j with
        | zero =>
          have he : c0 = e := by simpa using hj
          subst he
          have hmm := hmidA q hint
          rw [append_singleton_append] at hmm
          have keyeq : ∀ (suf : TPath),
              alookup m2 (path ++ i :: suf) = alookup mA (path ++ i :: suf) := by
            intro suf
            refine hpres2 _ ?_
            intro j' e' q'' hj' hint' heq
            have h4 := append_cons_inj.mp heq
            omega
          simp only [Nat.add_zero]
          refine rowRel_of_lookup_eq hmm ?_ ?_ ?_
          · rw [show (path ++ i :: q) ++ [0] = path ++ i :: (q ++ [0]) by simp]
            exact keyeq _
          · rw [show (path ++ i :: q) ++ [childCountAt c0 q - 1]
                = path ++ i :: (q ++ [childCountAt c0 q - 1]) by simp]
            exact keyeq _
          · exact keyeq q
        | succ j' =>
          have := hmid2 j' e q (by simpa using hj) hint
          rw [show (i + (j' + 1)) = ((i + 1) + j') by omega]
          exact this
      · intro p
        rw [hdom2 p, hdomA p]
        constructor
        · rintro ((h | ⟨q, hq, rfl⟩) | ⟨j, e, q, hj, hint, rfl⟩)
          · exact Or.inl h
          · exact Or.inr ⟨0, c0, q, rfl, hq, by rw [append_singleton_append]; simp⟩
          · exact Or.inr ⟨j + 1, e, q, by simpa using hj, hint,
              by rw [show (i + (j + 1)) = ((i + 1) + j) by omega]⟩
        · rintro (h | ⟨j, e, q, hj, hint, rfl⟩)
          · exact Or.inl (Or.inl h)
          · cases j with
            | zero =>
              have he : c0 = e := by simpa using hj
              subst he
              exact Or.inl (Or.inr ⟨q, hint, by rw [append_singleton_append]; simp⟩)
            | succ j' =>
              exact Or.inr ⟨j', e, q, by simpa using hj, hint,
                by rw [show ((i + 1) + j') = (i + (j' + 1)) by omega]⟩
termination_by cs _ _ _ => sizeOf cs
end
theorem alookup_none_of_not_mem {α : Type} :
    ∀ (m : List (TPath × α)) (p : TPath), p ∉ m.map Prod.fst → alookup m p = none := by
  intro m
  induction m with
  | nil => intro p _; rfl
  | cons kv rest ih =>
    intro p hp
    rcases kv with ⟨k, v⟩
    rw [alookup]
    simp only [List.map_cons, List.mem_cons] at hp
    push_neg at hp
    rw [if_neg hp.1]
    exact ih p hp.2
theorem alookup_isSome_of_mem {α : Type} :
    ∀ (m : List (TPath × α)) (p : TPath), p ∈ m.map Prod.fst →
      (alookup m p).isSome = true := by
  intro m
  induction m with
  | nil => intro p hp; simp at hp
  | cons kv rest ih =>
    intro p hp
    rcases kv with ⟨k, v⟩
    rw [alookup]
    by_cases h : p = k
    · rw [if_pos h]; rfl
    · rw [if_neg h]
      simp only [List.map_cons, List.mem_cons] at hp
      rcases hp with rfl | hp
      · exact absurd rfl h
      · exact ih p hp
mutual
theorem mem_leafPaths : ∀ (c : Clade) (q : TPath),
    q ∈ leafPaths c ↔ isLeafAt c q = true
  | .mk nm bl cf cs, q => by
    cases cs with
    | nil =>
      rw [leafPaths]
      cases q with
      | nil => simp [isLeafAt_nil]
      | cons j q' =>
        rw [isLeafAt_cons]
        cases j <;> simp
    | cons c0 rest =>
      rw [leafPaths]
      cases q with
      | nil =>
        rw [isLeafAt_nil]
        constructor
        · intro h
          rcases leafPathsL_head _ 0 _ h with ⟨j, q', heq, _⟩
          exact List.noConfusion heq
        · intro h
          simp at h
      | cons j q' =>
        rw [isLeafAt_cons]
        have := mem_leafPathsL (c0 :: rest) 0 j q'
        simp only [Nat.zero_add] at this
        rw [this]
termination_by c _ => sizeOf c
theorem mem_leafPathsL : ∀ (cs : List Clade) (i j : Nat) (q : TPath),
    ((i + j) :: q) ∈ leafPathsL cs i ↔
      (match cs.get? j with
       | some e => isLeafAt e q
       | none => false) = true
  | [], i, j, q => by cases j <;> simp [leafPathsL]
  | c :: cs, i, j, q => by
    rw [leafPathsL]
    cases j with
    | zero =>
      simp only [List.mem_append, List.mem_map, Nat.add_zero, List.get?]
      constructor
      · rintro (⟨q0, hq0, heq⟩ | h)
        · have hq0q : q0 = q := (List.cons.injEq _ _ _ _ ▸ heq).2
          subst hq0q
          exact (mem_leafPaths c q0).mp hq0
        · rcases leafPathsL_head cs (i + 1) _ h with ⟨j', q'', heq, hj⟩
          cases heq; omega
      · intro h
        exact Or.inl ⟨q, (mem_leafPaths c q).mpr h, rfl⟩
    | succ j' =>
      simp only [List.mem_append, List.mem_map, List.get?]
      constructor
      · rintro (⟨q0, _, heq⟩ | h)
        · exfalso
          have := (List.cons.injEq _ _ _ _ ▸ heq).1
          omega
        · have hre : (i + (j' + 1)) = ((i + 1) + j') := by omega
          rw [hre] at h
          exact (mem_leafPathsL cs (i + 1) j' q).mp h
      · intro h
        refine Or.inr ?_
        have hre : (i + (j' + 1)) = ((i + 1) + j') := by omega
        rw [hre]
        exact (mem_leafPathsL cs (i + 1) j' q).mpr h
termination_by cs _ _ _ => sizeOf cs
end
theorem leaf_internal_contra {c : Clade} {q : TPath}
    (h1 : isLeafAt c q = true) (h2 : isInternalAt c q = true) : False := by
  rw [isLeafAt] at h1
  rw [isInternalAt] at h2
  cases h : subcladeAt c q with
  | none => rw [h] at h1; exact Bool.noConfusion h1
  | some e =>
    rw [h] at h1 h2
    simp only [] at h1 h2
    rw [h1] at h2
    exact Bool.noConfusion h2
theorem get_terminals_keys (t : Clade) :
    (get_terminals t []).map Prod.fst = leafPaths t := by
  rw [get_terminals_eq, List.map_map]
  have : (Prod.fst ∘ fun q => (([] : TPath) ++ q, leafAtD t q)) = id := by
    funext q
    simp
  rw [this, List.map_id]
theorem init_keys : ∀ (l : List (TPath × Clade)) (k : Nat),
    (MyPhylogeny.init_positions l k).map Prod.fst = l.map Prod.fst := by
  intro l
  induction l with
  | nil => intro k; rfl
  | cons pc rest ih =>
    intro k
    rcases pc with ⟨p, c⟩
    rw [MyPhylogeny.init_positions]
    simp [ih (k + 1)]
theorem alookup_init_get : ∀ (l : List (TPath × Clade)) (k : Nat),
    (l.map Prod.fst).Nodup → ∀ (i : Nat) (h : i < l.length),
      alookup (MyPhylogeny.init_positions l k) (l.get ⟨i, h⟩).1 = some (2 * (k + i)) := by
  intro l
  induction l with
  | nil => intro k _ i h; simp at h
  | cons pc rest ih =>
    intro k hnd i h
    rcases pc with ⟨p, c⟩
    rw [MyPhylogeny.init_positions]
    cases i with
    | zero =>
      rw [alookup]
      simp
    | succ i' =>
      rw [alookup]
      have hkey : (rest.get ⟨i', by simpa using h⟩).1 ≠ p := by
        intro heq
        simp only [List.map_cons, List.nodup_cons] at hnd
        refine hnd.1 ?_
        rw [← heq]
        exact List.mem_map_of_mem Prod.fst (rest.get_mem _ _)
      rw [if_neg (by simpa using hkey)]
      have := ih (k + 1) (by simp only [List.map_cons, List.nodup_cons] at hnd; exact hnd.2)
        i' (by simpa using h)
      rw [show 2 * ((k + 1) + i') = 2 * (k + (i' + 1)) by omega] at this
      simpa using this
theorem get_row_positions_spec (t : Clade) (hne : t.clades ≠ []) :
    ∃ m, MyPhylogeny.get_row_positions t = .ok m ∧
      (∀ p, (∀ q, isInternalAt t q = true → p ≠ q) →
        alookup m p = alookup (MyPhylogeny.init_positions (get_terminals t []) 0) p) ∧
      (∀ q, isInternalAt t q = true → rowRel m q (childCountAt t q)) := by
  have Hl : ∀ q, isLeafAt t q = true →
      (alookup (MyPhylogeny.init_positions (get_terminals t []) 0) (([] : TPath) ++ q)).isSome
        = true := by
    intro q hq
    rw [List.nil_append]
    refine alookup_isSome_of_mem _ q ?_
    rw [init_keys, get_terminals_keys]
    exact (mem_leafPaths t q).mpr hq
  have Hf : ∀ q, isInternalAt t q = true →
      alookup (MyPhylogeny.init_positions (get_terminals t []) 0) (([] : TPath) ++ q) = none := by
    intro q hq
    rw [List.nil_append]
    refine alookup_none_of_not_mem _ q ?_
    rw [init_keys, get_terminals_keys]
    intro hmem
    exact leaf_internal_contra ((mem_leafPaths t q).mp hmem) hq
  obtain ⟨m, hrun, hpres, hmid, _⟩ := calc_row_spec t [] _ Hl Hf hne
  refine ⟨m, hrun, ?_, ?_⟩
  · intro p hp
    refine hpres p ?_
    intro q hq heq
    exact hp q hq (by simpa using heq)
  · intro q hq
    have := hmid q hq
    simpa using this
theorem cladeCount_pos : ∀ c : Clade, 1 ≤ cladeCount c
  | .mk _ _ _ cs => by rw [cladeCount]; omega
mutual
theorem add_to_elements_spec :
    ∀ (colp : List (TPath × Int)) (rowp : RowMap) (xlen ylen : Int) (g : Bool)
      (c : Clade) (path : TPath) (cid : List Char) (ns : List CyNode) (es : List CyEdge),
    MyPhylogeny.add_to_elements colp rowp xlen ylen g c path cid = .ok (ns, es) →
    ns.map CyNode.id = idList c cid ∧ ns.length = 2 * cladeCount c - 1 ∧
      ns.countP (fun nd => isSupport nd) = cladeCount c - 1 ∧
      es.length = 2 * (cladeCount c - 1)
  | colp, rowp, xlen, ylen, g, .mk nm bl cf cs, path, cid, ns, es => by
    intro h
    rw [MyPhylogeny.add_to_elements] at h
    cases hcol : alookup colp path with
    | none =>
      rw [hcol] at h
      exact absurd h (by simp)
    | some col =>
      rw [hcol] at h
      cases hrow : alookup rowp path with
      | none => rw [hrow] at h; exact absurd h (by simp)
      | some row =>
        rw [hrow] at h
        simp only [] at h
        cases hrec : MyPhylogeny.add_childrenL colp rowp xlen ylen g cs path cid
            (col * xlen) bl 0 with
        | error e => rw [hrec] at h; exact absurd h (by simp)
        | ok pair =>
          rcases pair with ⟨ns0, es0⟩
          rw [hrec] at h
          simp only [Except.ok.injEq, Prod.mk.injEq] at h
          obtain ⟨hns, hes⟩ := h
          obtain ⟨h1, h2, h3, h4⟩ :=
            add_childrenL_spec colp rowp xlen ylen g cs path cid (col * xlen) bl 0 ns0 es0 hrec
          subst hns hes
          rw [cladeCount]
          refine ⟨?_, ?_, ?_, ?_⟩
          · rw [idList, List.map_cons, h1]
          · rw [List.length_cons, h2]
            omega
          · rw [List.countP_cons, h3]
            have hsrc : (isSupport
                { id := cid, x := col * xlen, y := (row : Int) * ylen
                  classes := if cs.isEmpty then "terminal".data else "nonterminal".data
                  grabbable := g
                  name := if cs.isEmpty then some nm else none
                  confidence := confidence_attr cf cs } : Bool) = false := by
              cases hempty : cs.isEmpty <;> simp [isSupport, hempty]
            simp only [hsrc]
            simp
          · rw [h4]
            omega
termination_by _ _ _ _ _ c _ _ _ _ => sizeOf c
theorem add_childrenL_spec :
    ∀ (colp : List (TPath × Int)) (rowp : RowMap) (xlen ylen : Int) (g : Bool)
      (cs : List Clade) (path : TPath) (cid : List Char) (pos_x : Int)
      (pbl : Option Rat) (n : Nat) (ns : List CyNode) (es : List CyEdge),
    MyPhylogeny.add_childrenL colp rowp xlen ylen g cs path cid pos_x pbl n = .ok (ns, es) →
    ns.map CyNode.id = idListL cs cid n ∧ ns.length = 2 * cladeCountL cs ∧
      ns.countP (fun nd => isSupport nd) = cladeCountL cs ∧
      es.length = 2 * cladeCountL cs
  | colp, rowp, xlen, ylen, g, [], path, cid, pos_x, pbl, n, ns, es => by
    intro h
    rw [MyPhylogeny.add_childrenL] at h
    simp only [Except.ok.injEq, Prod.mk.injEq] at h
    obtain ⟨hns, hes⟩ := h
    subst hns hes
    simp [idListL, cladeCountL]
  | colp, rowp, xlen, ylen, g, c0 :: rest, path, cid, pos_x, pbl, n, ns, es => by
    intro h
    rw [MyPhylogeny.add_childrenL] at h
    cases hrowc : alookup rowp (path ++ [n]) with
    | none => rw [hrowc] at h; exact absurd h (by simp)
    | some rowc =>
      rw [hrowc] at h
      cases hrecA : MyPhylogeny.add_to_elements colp rowp xlen ylen g c0 (path ++ [n])
          (cid ++ 'c' :: natChars n) with
      | error e => rw [hrecA] at h; exact absurd h (by simp)
      | ok pairA =>
        rcases pairA with ⟨cns, ces⟩
        rw [hrecA] at h
        cases hrecB : MyPhylogeny.add_childrenL colp rowp xlen ylen g rest path cid pos_x
            pbl (n + 1) with
        | error e => rw [hrecB] at h; exact absurd h (by simp)
        | ok pairB =>
          rcases pairB with ⟨rns, res⟩
          rw [hrecB] at h
          simp only [Except.ok.injEq, Prod.mk.injEq] at h
          obtain ⟨hns, hes⟩ := h
          obtain ⟨hA1, hA2, hA3, hA4⟩ :=
            add_to_elements_spec colp rowp xlen ylen g c0 (path ++ [n])
              (cid ++ 'c' :: natChars n) cns ces hrecA
          obtain ⟨hB1, hB2, hB3, hB4⟩ :=
            add_childrenL_spec colp rowp xlen ylen g rest path cid pos_x pbl (n + 1)
              rns res hrecB
          subst hns hes
          have hpos := cladeCount_pos c0
          rw [cladeCountL]
          refine ⟨?_, ?_, ?_, ?_⟩
          · rw [idListL, List.map_cons, List.map_append, hA1, hB1]
          · rw [List.length_cons, List.length_append, hA2, hB2]
            omega
          · rw [List.countP_cons, List.countP_append, hA3, hB3]
            have hsup : (isSupport
                { id := cid ++ 's' :: natChars n, x := pos_x, y := (rowc : Int) * ylen
                  classes := "support".data, grabbable := g
                  name := none, confidence := none } : Bool) = true := by
              simp [isSupport]
            simp only [hsup, if_true]
            omega
          · rw [List.length_cons, List.length_cons, List.length_append, hA4, hB4]
            omega
termination_by _ _ _ _ _ cs _ _ _ _ _ _ _ => sizeOf cs
end
theorem toDigitsCore_eq_digitsRec : ∀ (n fuel : Nat) (ds : List Char), n < fuel →
    Nat.toDigitsCore 10 fuel n ds = digitsRec n ++ ds := by
  intro n
  induction n using Nat.strong_induction_on with
  | _ n ih =>
    intro fuel ds hfuel
    cases fuel with
    | zero => omega
    | succ f =>
      rw [Nat.toDigitsCore]
      by_cases h0 : n / 10 = 0
      · rw [if_pos h0]
        have hn : n < 10 := by
          by_contra hge
          rw [Nat.div_eq_zero_iff (by omega)] at h0
          omega
        rw [digitsRec, dif_pos hn, Nat.mod_eq_of_lt hn]
        rfl
      · rw [if_neg h0]
        have hn : ¬ n < 10 := by
          intro hlt
          exact h0 (Nat.div_eq_of_lt hlt)
        have hlt1 : n / 10 < n := Nat.div_lt_self (by omega) (by omega)
        rw [ih (n / 10) hlt1 f _ (by omega)]
        conv_rhs => rw [digitsRec]
        rw [dif_neg hn]
        simp
theorem natChars_eq_digitsRec (n : Nat) : natChars n = digitsRec n := by
  rw [natChars, Nat.toDigits, toDigitsCore_eq_digitsRec n (n + 1) [] (by omega)]
  simp
theorem digitChar_isDigit : ∀ k, k < 10 → (Nat.digitChar k).isDigit = true := by
  decide
theorem digitChar_toNat : ∀ k, k < 10 → (Nat.digitChar k).toNat - 48 = k := by
  decide
theorem digitsRec_all_digits : ∀ n, ∀ c ∈ digitsRec n, c.isDigit = true := by
  intro n
  induction n using Nat.strong_induction_on with
  | _ n ih =>
    intro c hc
    by_cases h : n < 10
    · rw [digitsRec, dif_pos h] at hc
      simp only [List.mem_singleton] at hc
      subst hc
      exact digitChar_isDigit n h
    · rw [digitsRec, dif_neg h] at hc
      rcases List.mem_append.mp hc with hc | hc
      · exact ih (n / 10) (Nat.div_lt_self (by omega) (by omega)) c hc
      · simp only [List.mem_singleton] at hc
        subst hc
        exact digitChar_isDigit _ (Nat.mod_lt _ (by omega))
theorem natChars_all_digits (n : Nat) : ∀ c ∈ natChars n, c.isDigit = true := by
  rw [natChars_eq_digitsRec]
  exact digitsRec_all_digits n
theorem valOfDigits_digitsRec : ∀ n acc,
    valOfDigits (digitsRec n) acc = acc * 10 ^ (digitsRec n).length + n := by
  intro n
  induction n using Nat.strong_induction_on with
  | _ n ih =>
    intro acc
    by_cases h : n < 10
    · rw [digitsRec, dif_pos h]
      simp only [valOfDigits, List.foldl_cons, List.foldl_nil, List.length_singleton]
      rw [digitChar_toNat n h]
      ring
    · rw [digitsRec, dif_neg h]
      simp only [valOfDigits, List.foldl_append, List.foldl_cons, List.foldl_nil,
        List.length_append, List.length_singleton]
      have hrec := ih (n / 10) (Nat.div_lt_self (by omega) (by omega)) acc
      rw [valOfDigits] at hrec
      rw [hrec, digitChar_toNat _ (Nat.mod_lt _ (by omega))]
      have : 10 * (acc * 10 ^ (digitsRec (n / 10)).length + n / 10) + n % 10
          = acc * 10 ^ ((digitsRec (n / 10)).length + 1) + (10 * (n / 10) + n % 10) := by
        ring
      rw [this, Nat.div_add_mod]
theorem natChars_injective : ∀ a b, natChars a = natChars b → a = b := by
  intro a b h
  rw [natChars_eq_digitsRec, natChars_eq_digitsRec] at h
  have ha := valOfDigits_digitsRec a 0
  have hb := valOfDigits_digitsRec b 0
  rw [h] at ha
  rw [ha] at hb
  omega
theorem digit_run_cancel : ∀ (d1 d2 s t : List Char),
    (∀ c ∈ d1, c.isDigit = true) → (∀ c ∈ d2, c.isDigit = true) →
    headNondigit s → headNondigit t →
    d1 ++ s = d2 ++ t → d1 = d2 ∧ s = t := by
  intro d1
  induction d1 with
  | nil =>
    intro d2 s t _ hd2 hs ht heq
    cases d2 with
    | nil => exact ⟨rfl, heq⟩
    | cons c2 d2' =>
      exfalso
      simp only [List.nil_append, List.cons_append] at heq
      have h1 := hs c2 _ heq
      have h2 := hd2 c2 (List.mem_cons_self _ _)
      rw [h1] at h2
      exact Bool.noConfusion h2
  | cons c1 d1' ih =>
    intro d2 s t hd1 hd2 hs ht heq
    cases d2 with
    | nil =>
      exfalso
      simp only [List.nil_append, List.cons_append] at heq
      have h1 := ht c1 _ heq.symm
      have h2 := hd1 c1 (List.mem_cons_self _ _)
      rw [h1] at h2
      exact Bool.noConfusion h2
    | cons c2 d2' =>
      simp only [List.cons_append, List.cons.injEq] at heq
      obtain ⟨rfl, heq2⟩ := heq
      obtain ⟨hd, hst⟩ := ih d2' s t (fun c hc => hd1 c (List.mem_cons_of_mem _ hc))
        (fun c hc => hd2 c (List.mem_cons_of_mem _ hc)) hs ht heq2
      exact ⟨by rw [hd], hst⟩
theorem natChars_cancel {a b : Nat} {s t : List Char}
    (hs : headNondigit s) (ht : headNondigit t)
    (h : natChars a ++ s = natChars b ++ t) : a = b ∧ s = t := by
  obtain ⟨hd, hst⟩ := digit_run_cancel (natChars a) (natChars b) s t
    (natChars_all_digits a) (natChars_all_digits b) hs ht h
  exact ⟨natChars_injective a b hd, hst⟩
mutual
theorem idList_eq : ∀ (c : Clade) (cid : List Char),
    idList c cid = (tailSet c).map (cid ++ ·)
  | .mk nm bl cf cs, cid => by
    rw [idList, tailSet, List.map_cons, idListL_eq cs cid 0]
    simp
termination_by c _ => sizeOf c
theorem idListL_eq : ∀ (cs : List Clade) (cid : List Char) (n : Nat),
    idListL cs cid n = (tailSetL cs n).map (cid ++ ·)
  | [], _, _ => by simp [idListL, tailSetL]
  | c :: cs, cid, n => by
    rw [idListL, tailSetL, List.map_cons, List.map_append, List.map_map,
      idList_eq c (cid ++ 'c' :: natChars n), idListL_eq cs cid (n + 1)]
    refine congrArg₂ _ rfl (congrArg₂ _ (List.map_congr_left ?_) rfl)
    intro t _
    simp
termination_by cs _ _ => sizeOf cs
end
mutual
theorem tailSet_shape : ∀ (c : Clade) (x : List Char), x ∈ tailSet c →
    x = [] ∨ (∃ r, x = 's' :: r) ∨ (∃ r, x = 'c' :: r)
  | .mk nm bl cf cs, x => by
    rw [tailSet]
    intro hx
    rcases List.mem_cons.mp hx with rfl | hx
    · exact Or.inl rfl
    · rcases tailSetL_shape cs 0 x hx with ⟨k, _, rfl⟩ | ⟨k, t, _, _, rfl⟩
      · exact Or.inr (Or.inl ⟨natChars k, rfl⟩)
      · exact Or.inr (Or.inr ⟨natChars k ++ t, rfl⟩)
termination_by c _ => sizeOf c
theorem tailSetL_shape : ∀ (cs : List Clade) (n : Nat) (x : List Char), x ∈ tailSetL cs n →
    (∃ k, n ≤ k ∧ x = 's' :: natChars k) ∨
      (∃ k t, n ≤ k ∧ headNondigit t ∧ x = 'c' :: natChars k ++ t)
  | [], n, x => by intro hx; simp [tailSetL] at hx
  | c :: cs, n, x => by
    rw [tailSetL]
    intro hx
    rcases List.mem_cons.mp hx with rfl | hx
    · exact Or.inl ⟨n, le_refl n, rfl⟩
    · rcases List.mem_append.mp hx with hx | hx
      · rcases List.mem_map.mp hx with ⟨t, ht, rfl⟩
        refine Or.inr ⟨n, t, le_refl n, ?_, rfl⟩
        intro ch s' heq
        rcases tailSet_shape c t ht with rfl | ⟨r, rfl⟩ | ⟨r, rfl⟩
        · exact List.noConfusion heq
        · cases heq; decide
        · cases heq; decide
      · rcases tailSetL_shape cs (n + 1) x hx with ⟨k, hk, rfl⟩ | ⟨k, t, hk, ht, rfl⟩
        · exact Or.inl ⟨k, by omega, rfl⟩
        · exact Or.inr ⟨k, t, by omega, ht, rfl⟩
termination_by cs _ _ => sizeOf cs
end
theorem headNondigit_of_tailSet {c : Clade} {t : List Char} (ht : t ∈ tailSet c) :
    headNondigit t := by
  intro ch s' heq
  rcases tailSet_shape c t ht with rfl | ⟨r, hr⟩ | ⟨r, hr⟩
  · exact List.noConfusion heq
  · rw [hr] at heq
    cases heq; decide
  · rw [hr] at heq
    cases heq; decide
mutual
theorem tailSet_nodup : ∀ c : Clade, (tailSet c).Nodup
  | .mk nm bl cf cs => by
    rw [tailSet]
    refine List.nodup_cons.mpr ⟨?_, tailSetL_nodup cs 0⟩
    intro h
    rcases tailSetL_shape cs 0 _ h with ⟨k, _, heq⟩ | ⟨k, t, _, _, heq⟩
    · exact List.noConfusion heq
    · exact List.noConfusion heq
termination_by c => sizeOf c
theorem tailSetL_nodup : ∀ (cs : List Clade) (n : Nat), (tailSetL cs n).Nodup
  | [], _ => by simp [tailSetL]
  | c :: cs, n => by
    rw [tailSetL]
    refine List.nodup_cons.mpr ⟨?_, ?_⟩
    · intro h
      rcases List.mem_append.mp h with h | h
      · rcases List.mem_map.mp h with ⟨t, _, heq⟩
        have h1 : 's' = 'c' := by
          have h2 : 'c' :: (natChars n ++ t) = 's' :: natChars n := by
            simp only [List.cons_append] at heq
            exact heq
          exact ((List.cons.injEq _ _ _ _).mp h2).1.symm
        exact absurd h1 (by decide)
      · rcases tailSetL_shape cs (n + 1) _ h with ⟨k, hk, heq⟩ | ⟨k, t, hk, ht, heq⟩
        · have h1 := (List.cons.injEq _ _ _ _ ▸ heq.symm)
          obtain ⟨_, h2⟩ := h1
          have := natChars_injective k n h2
          omega
        · have h1 := (List.cons.injEq _ _ _ _ ▸ heq.symm)
          exact absurd h1.1 (by decide)
    · refine List.Nodup.append ?_ (tailSetL_nodup cs (n + 1)) ?_
      · refine (tailSet_nodup c).map ?_
        intro a b hab
        have := (List.cons.injEq _ _ _ _ ▸ hab)
        exact List.append_cancel_left this.2
      · intro x hx1 hx2
        rcases List.mem_map.mp hx1 with ⟨t, ht, rfl⟩
        rcases tailSetL_shape cs (n + 1) _ hx2 with ⟨k, hk, heq⟩ | ⟨k, t', hk, ht', heq⟩
        · have h1 := (List.cons.injEq _ _ _ _ ▸ heq)
          exact absurd h1.1 (by decide)
        · have h1 := (List.cons.injEq _ _ _ _ ▸ heq)
          obtain ⟨nk, _⟩ := natChars_cancel (headNondigit_of_tailSet ht) ht' h1.2
          omega
termination_by cs _ => sizeOf cs
end
theorem idList_nodup (c : Clade) (cid : List Char) : (idList c cid).Nodup := by
  rw [idList_eq]
  exact (tailSet_nodup c).map fun a b h => List.append_cancel_left h
theorem pyMax_eq_zero {l : List Rat} (h : ∀ x ∈ l, x = 0) : pyMax l = 0 := by
  cases l with
  | nil => rfl
  | cons x xs =>
    rw [pyMax]
    have hx : x = 0 := h x (List.mem_cons_self _ _)
    subst hx
    induction xs with
    | nil => rfl
    | cons y ys ih =>
      have hy : y = 0 := h y (List.mem_cons_of_mem _ (List.mem_cons_self _ _))
      subst hy
      rw [List.foldl_cons, max_self]
      exact ih fun z hz => by
        rcases List.mem_cons.mp hz with rfl | hz
        · rfl
        · exact h z (List.mem_cons_of_mem _ (List.mem_cons_of_mem _ hz))
theorem foldl_max_le {l : List Rat} : ∀ (a : Rat), a ≤ l.foldl max a := by
  induction l with
  | nil => intro a; exact le_refl a
  | cons x xs ih =>
    intro a
    rw [List.foldl_cons]
    exact le_trans (le_max_left a x) (ih (max a x))
theorem foldl_max_mono {l : List Rat} {a b : Rat} (h : a ≤ b) :
    l.foldl max a ≤ l.foldl max b := by
  induction l generalizing a b with
  | nil => exact h
  | cons x xs ih =>
    rw [List.foldl_cons, List.foldl_cons]
    exact ih (max_le_max h (le_refl x))
theorem mem_le_foldl_max : ∀ (l : List Rat) (a x : Rat), x ∈ l → x ≤ l.foldl max a := by
  intro l
  induction l with
  | nil => intro a x hx; simp at hx
  | cons y ys ih =>
    intro a x hx
    rw [List.foldl_cons]
    rcases List.mem_cons.mp hx with rfl | hx
    · exact le_trans (le_max_right a x) (foldl_max_le _)
    · exact ih (max a y) x hx
theorem le_pyMax {l : List Rat} {x : Rat} (hx : x ∈ l) : x ≤ pyMax l := by
  cases l with
  | nil => simp at hx
  | cons y ys =>
    rw [pyMax]
    rcases List.mem_cons.mp hx with rfl | hx
    · exact foldl_max_le _
    · exact mem_le_foldl_max ys y x hx
theorem foldl_max_mem : ∀ (l : List Rat) (a : Rat), l.foldl max a = a ∨ l.foldl max a ∈ l := by
  intro l
  induction l with
  | nil => intro a; exact Or.inl rfl
  | cons y ys ih =>
    intro a
    rw [List.foldl_cons]
    rcases ih (max a y) with h | h
    · rcases max_choice a y with hc | hc
      · exact Or.inl (h.trans hc)
      · exact Or.inr (by rw [h, hc]; exact List.mem_cons_self _ _)
    · exact Or.inr (List.mem_cons_of_mem _ h)
theorem pyMax_mem {l : List Rat} (h : l ≠ []) : pyMax l ∈ l := by
  cases l with
  | nil => exact absurd rfl h
  | cons x xs =>
    rw [pyMax]
    rcases foldl_max_mem xs x with hm | hm
    · rw [hm]
      exact List.mem_cons_self _ _
    · exact List.mem_cons_of_mem _ hm
mutual
theorem relDepth_unit : ∀ (c : Clade) (q : TPath), (subcladeAt c q).isSome = true →
    relDepth true c q = (q.length : Rat)
  | c, [], _ => by rw [relDepth]; simp
  | .mk nm bl cf cs, j :: q, h => by
    rw [subcladeAt] at h
    rw [relDepth, relDepthL_unit cs j q h]
    simp
termination_by c q => sizeOf c + q.length
theorem relDepthL_unit : ∀ (cs : List Clade) (j : Nat) (q : TPath),
    (subcladeAtL cs j q).isSome = true → relDepthL true cs j q = (q.length : Rat) + 1
  | [], j, q, h => by rw [subcladeAtL] at h; exact absurd h (by simp)
  | c :: cs, 0, q, h => by
    rw [subcladeAtL] at h
    rw [relDepthL, relDepth_unit c q h, depth_of]
    simp [add_comm]
  | c :: cs, j + 1, q, h => by
    rw [subcladeAtL] at h
    rw [relDepthL, relDepthL_unit cs j q h]
termination_by cs _ q => sizeOf cs + q.length
end
mutual
theorem subcladeAt_append : ∀ (c : Clade) (q1 q2 : TPath),
    subcladeAt c (q1 ++ q2) = (subcladeAt c q1).bind fun e => subcladeAt e q2
  | c, [], q2 => by rw [subcladeAt]; simp
  | .mk nm bl cf cs, j :: q1, q2 => by
    rw [List.cons_append, subcladeAt, subcladeAt, subcladeAtL_append cs j q1 q2]
termination_by c q1 _ => sizeOf c + q1.length
theorem subcladeAtL_append : ∀ (cs : List Clade) (j : Nat) (q1 q2 : TPath),
    subcladeAtL cs j (q1 ++ q2) = (subcladeAtL cs j q1).bind fun e => subcladeAt e q2
  | [], j, q1, q2 => by rw [subcladeAtL, subcladeAtL]; rfl
  | c :: cs, 0, q1, q2 => by
    rw [subcladeAtL, subcladeAtL, subcladeAt_append c q1 q2]
  | c :: cs, j + 1, q1, q2 => by
    rw [subcladeAtL, subcladeAtL, subcladeAtL_append cs j q1 q2]
termination_by cs _ q1 _ => sizeOf cs + q1.length
end
theorem relDepth_single : ∀ (e : Clade) (i : Nat) (child : Clade),
    e.clades.get? i = some child → ∀ u, relDepth u e [i] = depth_of u child := by
  intro e i child hget u
  cases e with
  | mk nm bl cf cs =>
    rw [relDepth]
    simp only [Clade.clades] at hget
    induction cs generalizing i with
    | nil => simp at hget
    | cons c0 rest ih =>
      cases i with
      | zero =>
        simp only [List.get?] at hget
        cases hget
        rw [relDepthL, relDepth]
        simp
      | succ i' =>
        rw [relDepthL]
        exact ih i' (by simpa using hget)
theorem pyInt_mono {a b : Rat} (h : a ≤ b) : pyInt a ≤ pyInt b := by
  rw [pyInt, pyInt]
  by_cases ha : 0 ≤ a
  · rw [if_pos ha, if_pos (le_trans ha h)]
    exact Int.floor_le_floor h
  · rw [if_neg ha]
    by_cases hb : 0 ≤ b
    · rw [if_pos hb]
      calc ⌈a⌉ ≤ 0 := Int.ceil_le.mpr (by exact_mod_cast le_of_lt (lt_of_not_ge ha))
        _ ≤ ⌊b⌋ := Int.floor_nonneg.mpr hb
    · rw [if_neg hb]
      exact Int.ceil_le_ceil h
theorem relDepth_nil (u : Bool) (c : Clade) : relDepth u c [] = 0 := by
  cases c
  rfl
theorem alookup_graph_plain {α : Type} (f : TPath → α) :
    ∀ (paths : List TPath) (q : TPath), q ∈ paths →
      alookup (paths.map (fun p => (p, f p))) q = some (f q) := by
  intro paths
  induction paths with
  | nil => intro q h; simp at h
  | cons p0 ps ih =>
    intro q hq
    rw [List.map_cons, alookup]
    by_cases h : q = p0
    · subst h
      simp
    · rw [if_neg h]
      exact ih q (by rcases List.mem_cons.mp hq with rfl | hq; exact absurd rfl h; exact hq)
theorem specDepth_eq_of_not_allZero {t : Clade} (h : ¬ specAllZero t) :
    specDepth t = specBlDepth t := by
  funext q
  rw [specDepth, if_neg h]
theorem get_col_positions_spec (t : Clade)
    (h1 : 1 ≤ (get_terminals t []).length)
    (h2 : specMaxDepth t ≠ 0) :
    ∃ l, MyPhylogeny.get_col_positions t 80 = .ok l ∧
      ∀ q, (subcladeAt t q).isSome = true →
        alookup l q = some (pyInt (specDepth t q * specScale t + 1)) := by
  have hdeps : ∀ u, tree_depths t u =
      (cladePaths t).map (fun q => (q, t.branch_length.getD 0 + relDepth u t q)) := by
    intro u
    rw [tree_depths, update_depths_eq]
    refine List.map_congr_left ?_
    intro q _
    simp
  have hsnd : ∀ u, (tree_depths t u).map Prod.snd =
      (cladePaths t).map (fun q => t.branch_length.getD 0 + relDepth u t q) := by
    intro u
    rw [hdeps u, List.map_map]
    rfl
  have hmem_nil : ([] : TPath) ∈ cladePaths t :=
    (mem_cladePaths t []).mpr (by rw [subcladeAt]; rfl)
  obtain ⟨w, ws, hlab⟩ : ∃ w ws,
      (get_terminals t []).map (fun pc => (cladeStr pc.2).length) = w :: ws := by
    cases hl : (get_terminals t []).map (fun pc => (cladeStr pc.2).length) with
    | nil =>
      exfalso
      have hnil := List.map_eq_nil_iff.mp hl
      rw [hnil] at h1
      simp at h1
    | cons w ws => exact ⟨w, ws, rfl⟩
  have hlabel : specMaxLabelWidth t = ws.foldl max w := by
    rw [specMaxLabelWidth, hlab, List.foldl_cons, Nat.zero_max]
  by_cases haz : specAllZero t
  · -- every branch-length depth is zero: the code substitutes unit branch lengths
    have hbl0 : t.branch_length.getD 0 = 0 := by
      have := haz [] hmem_nil
      rw [specBlDepth, relDepth_nil, add_zero] at this
      exact this
    have hz : pyMax ((tree_depths t false).map Prod.snd) = 0 := by
      refine pyMax_eq_zero ?_
      intro x hx
      rw [hsnd] at hx
      rcases List.mem_map.mp hx with ⟨q, hq, rfl⟩
      exact haz q hq
    have hvals : ∀ q ∈ cladePaths t,
        t.branch_length.getD 0 + relDepth true t q = specDepth t q := by
      intro q hq
      rw [hbl0, relDepth_unit t q ((mem_cladePaths t q).mp hq), zero_add,
        specDepth, if_pos haz]
    have hmaxd : pyMax ((tree_depths t true).map Prod.snd) = specMaxDepth t := by
      rw [hsnd, specMaxDepth]
      exact congrArg pyMax (List.map_congr_left hvals)
    refine ⟨(tree_depths t true).map
      (fun pb => (pb.1, pyInt (pb.2 *
        (((80 - ((ws.foldl max w : Nat) : Int) - 1 -
          ((Nat.clog 2 (get_terminals t []).length : Nat) : Int) : Int) : Rat) /
            pyMax ((tree_depths t true).map Prod.snd)) + 1))), ?_, ?_⟩
    · rw [MyPhylogeny.get_col_positions, hlab]
      simp only []
      rw [if_pos hz, if_neg (by rw [hmaxd]; exact h2)]
    · intro q hq
      have hmem : q ∈ cladePaths t := (mem_cladePaths t q).mpr hq
      have hCeq : (((80 - ((ws.foldl max w : Nat) : Int) - 1 -
          ((Nat.clog 2 (get_terminals t []).length : Nat) : Int) : Int) : Rat) /
            pyMax ((tree_depths t true).map Prod.snd)) = specScale t := by
        rw [hmaxd, specScale, hlabel]
      rw [hCeq, hdeps true, List.map_map]
      have hcomp : ((fun pb => (pb.1, pyInt (pb.2 * specScale t + 1))) ∘
          (fun q => (q, t.branch_length.getD 0 + relDepth true t q)))
          = fun q => (q, pyInt ((t.branch_length.getD 0 + relDepth true t q) *
              specScale t + 1)) := rfl
      rw [hcomp, alookup_graph_plain _ (cladePaths t) q hmem, hvals q hmem]
  · -- some branch-length depth is nonzero
    have hz : ¬ pyMax ((tree_depths t false).map Prod.snd) = 0 := by
      intro hzz
      refine h2 ?_
      rw [specMaxDepth]
      have hmapeq : (cladePaths t).map (specDepth t) =
          (tree_depths t false).map Prod.snd := by
        rw [hsnd]
        refine List.map_congr_left ?_
        intro q _
        rw [specDepth_eq_of_not_allZero haz, specBlDepth]
      rw [hmapeq, hzz]
    have hvals : ∀ q ∈ cladePaths t,
        t.branch_length.getD 0 + relDepth false t q = specDepth t q := by
      intro q _
      rw [specDepth_eq_of_not_allZero haz, specBlDepth]
    have hmaxd : pyMax ((tree_depths t false).map Prod.snd) = specMaxDepth t := by
      rw [hsnd, specMaxDepth]
      exact congrArg pyMax (List.map_congr_left hvals)
    refine ⟨(tree_depths t false).map
      (fun pb => (pb.1, pyInt (pb.2 *
        (((80 - ((ws.foldl max w : Nat) : Int) - 1 -
          ((Nat.clog 2 (get_terminals t []).length : Nat) : Int) : Int) : Rat) /
            pyMax ((tree_depths t false).map Prod.snd)) + 1))), ?_, ?_⟩
    · rw [MyPhylogeny.get_col_positions, hlab]
      simp only []
      rw [if_neg hz, if_neg (by rw [hmaxd]; exact h2)]
    · intro q hq
      have hmem : q ∈ cladePaths t := (mem_cladePaths t q).mpr hq
      have hCeq : (((80 - ((ws.foldl max w : Nat) : Int) - 1 -
          ((Nat.clog 2 (get_terminals t []).length : Nat) : Int) : Int) : Rat) /
            pyMax ((tree_depths t false).map Prod.snd)) = specScale t := by
        rw [hmaxd, specScale, hlabel]
      rw [hCeq, hdeps false, List.map_map]
      have hcomp : ((fun pb => (pb.1, pyInt (pb.2 * specScale t + 1))) ∘
          (fun q => (q, t.branch_length.getD 0 + relDepth false t q)))
          = fun q => (q, pyInt ((t.branch_length.getD 0 + relDepth false t q) *
              specScale t + 1)) := rfl
      rw [hcomp, alookup_graph_plain _ (cladePaths t) q hmem, hvals q hmem]
theorem get_col_positions_inv (t : Clade) (l : List (TPath × Int))
    (hrun : MyPhylogeny.get_col_positions t 80 = .ok l) :
    ∃ (u : Bool) (w : Nat) (ws : List Nat),
      (get_terminals t []).map (fun pc => (cladeStr pc.2).length) = w :: ws ∧
      pyMax ((tree_depths t u).map Prod.snd) ≠ 0 ∧
      l = (tree_depths t u).map (fun pb => (pb.1, pyInt (pb.2 *
        (((80 - ((ws.foldl max w : Nat) : Int) - 1 -
          ((Nat.clog 2 (get_terminals t []).length : Nat) : Int) : Int) : Rat) /
            pyMax ((tree_depths t u).map Prod.snd)) + 1))) := by
  rw [MyPhylogeny.get_col_positions] at hrun
  cases hlab : (get_terminals t []).map (fun pc => (cladeStr pc.2).length) with
  | nil =>
    rw [hlab] at hrun
    exact absurd hrun (by simp)
  | cons w ws =>
    rw [hlab] at hrun
    simp only [] at hrun
    by_cases hcond : pyMax ((tree_depths t false).map Prod.snd) = 0
    · rw [if_pos hcond] at hrun
      by_cases hguard : pyMax ((tree_depths t true).map Prod.snd) = 0
      · rw [if_pos hguard] at hrun
        exact absurd hrun (by simp)
      · rw [if_neg hguard] at hrun
        refine ⟨true, w, ws, rfl, hguard, ?_⟩
        simp only [Except.ok.injEq] at hrun
        exact hrun.symm
    · rw [if_neg hcond] at hrun
      rw [if_neg hcond] at hrun
      refine ⟨false, w, ws, rfl, hcond, ?_⟩
      simp only [Except.ok.injEq] at hrun
      exact hrun.symm
theorem relDepth_false_nonneg (t : Clade) (hbl : allNonnegBL t) :
    ∀ q, (subcladeAt t q).isSome = true → 0 ≤ relDepth false t q := by
  intro q
  induction q using List.reverseRecOn with
  | nil => intro _; rw [relDepth_nil]
  | append_singleton q' i ih =>
    intro hv
    rw [subcladeAt_append] at hv
    cases hsub : subcladeAt t q' with
    | none => rw [hsub] at hv; exact absurd hv (by simp)
    | some e =>
      rw [hsub] at hv
      simp only [Option.some_bind] at hv
      cases hchild : subcladeAt e [i] with
      | none => rw [hchild] at hv; exact absurd hv (by simp)
      | some child =>
        have hget : e.clades.get? i = some child := by
          cases e with
          | mk nm bl cf cs =>
            rw [subcladeAt, subcladeAtL_get] at hchild
            simp only [Clade.clades]
            cases hg : cs.get? i with
            | none => rw [hg] at hchild; exact Option.noConfusion hchild
            | some e2 =>
              rw [hg] at hchild
              simp only [Option.some_bind, subcladeAt] at hchild
              exact hchild
        rw [relDepth_append false t q' e hsub [i], relDepth_single e i child hget false]
        have h1 : 0 ≤ relDepth false t q' := ih (by rw [hsub]; rfl)
        have h2 : 0 ≤ depth_of false child := by
          have := hbl (q' ++ [i]) ((mem_cladePaths t _).mpr (by
            rw [subcladeAt_append, hsub]
            simp only [Option.some_bind]
            rw [hchild]
            rfl))
          rw [blAt, subcladeAt_append, hsub] at this
          simp only [Option.some_bind] at this
          rw [hchild] at this
          rw [depth_of]
          simpa using this
        exact add_nonneg h1 h2
theorem tree_depths_ne_nil (t : Clade) (u : Bool) : tree_depths t u ≠ [] := by
  cases t with
  | mk nm bl cf cs =>
    rw [tree_depths, update_depths]
    exact List.cons_ne_nil _ _
theorem get_col_positions_mono (t : Clade) (l : List (TPath × Int))
    (hrun : MyPhylogeny.get_col_positions t 80 = .ok l)
    (hbl : allNonnegBL t)
    (hscale : (Nat.clog 2 (get_terminals t []).length : Int) ≤
      80 - (specMaxLabelWidth t : Int) - 1) :
    ∀ (q : TPath) (c : Clade) (i : Nat) (a b : Int),
      subcladeAt t q = some c → i < c.clades.length →
      alookup l q = some a → alookup l (q ++ [i]) = some b → a ≤ b := by
  obtain ⟨u, w, ws, hlab, hmaxne, hleq⟩ := get_col_positions_inv t l hrun
  have hbl0 : 0 ≤ t.branch_length.getD 0 := by
    have := hbl [] ((mem_cladePaths t []).mpr (by rw [subcladeAt]; rfl))
    rw [blAt, subcladeAt] at this
    exact this
  have hrel_nonneg : ∀ p, (subcladeAt t p).isSome = true → 0 ≤ relDepth u t p := by
    intro p hp
    cases u with
    | false => exact relDepth_false_nonneg t hbl p hp
    | true =>
      rw [relDepth_unit t p hp]
      exact_mod_cast Nat.zero_le _
  have hdeps : tree_depths t u =
      (cladePaths t).map (fun p => (p, t.branch_length.getD 0 + relDepth u t p)) := by
    rw [tree_depths, update_depths_eq]
    refine List.map_congr_left ?_
    intro p _
    simp
  have hvals_nonneg : ∀ x ∈ (tree_depths t u).map Prod.snd, (0 : Rat) ≤ x := by
    intro x hx
    rw [hdeps, List.map_map] at hx
    rcases List.mem_map.mp hx with ⟨p, hp, rfl⟩
    exact add_nonneg hbl0 (hrel_nonneg p ((mem_cladePaths t p).mp hp))
  have hmax_pos : 0 < pyMax ((tree_depths t u).map Prod.snd) := by
    refine lt_of_le_of_ne ?_ (Ne.symm hmaxne)
    refine hvals_nonneg _ (pyMax_mem ?_)
    intro hemp
    exact tree_depths_ne_nil t u (List.map_eq_nil_iff.mp hemp)
  have hlabel : specMaxLabelWidth t = ws.foldl max w := by
    rw [specMaxLabelWidth, hlab, List.foldl_cons, Nat.zero_max]
  have hC_nonneg : (0 : Rat) ≤
      (((80 - ((ws.foldl max w : Nat) : Int) - 1 -
        ((Nat.clog 2 (get_terminals t []).length : Nat) : Int) : Int) : Rat) /
          pyMax ((tree_depths t u).map Prod.snd)) := by
    refine div_nonneg ?_ (le_of_lt hmax_pos)
    have hnum : (0 : Int) ≤ 80 - ((ws.foldl max w : Nat) : Int) - 1 -
        ((Nat.clog 2 (get_terminals t []).length : Nat) : Int) := by
      rw [← hlabel]
      omega
    exact_mod_cast hnum
  have hstruct : l = (cladePaths t).map (fun p => (p, pyInt
      ((t.branch_length.getD 0 + relDepth u t p) *
        (((80 - ((ws.foldl max w : Nat) : Int) - 1 -
          ((Nat.clog 2 (get_terminals t []).length : Nat) : Int) : Int) : Rat) /
            pyMax ((tree_depths t u).map Prod.snd)) + 1))) := by
    rw [hleq]
    conv_lhs => rw [hdeps]
    rw [List.map_map, ← hdeps]
    rfl
  intro q c i a b hsub hi ha hb
  have hgetc : c.clades.get? i = some (c.clades.get ⟨i, hi⟩) := List.get?_eq_get hi
  have hsubchild : subcladeAt t (q ++ [i]) = some (c.clades.get ⟨i, hi⟩) := by
    rw [subcladeAt_append, hsub, Option.some_bind]
    cases c with
    | mk nm bl cf cs =>
      rw [subcladeAt, subcladeAtL_get]
      simp only [Clade.clades] at hgetc ⊢
      rw [hgetc, Option.some_bind, subcladeAt]
  have hmemq : q ∈ cladePaths t := (mem_cladePaths t q).mpr (by rw [hsub]; rfl)
  have hmemqi : q ++ [i] ∈ cladePaths t := (mem_cladePaths t _).mpr (by rw [hsubchild]; rfl)
  rw [hstruct, alookup_graph_plain _ _ q hmemq] at ha
  rw [hstruct, alookup_graph_plain _ _ (q ++ [i]) hmemqi] at hb
  have ha' := (Option.some.injEq _ _ ▸ ha).symm
  have hb' := (Option.some.injEq _ _ ▸ hb).symm
  rw [ha', hb']
  refine pyInt_mono ?_
  have hdelta : relDepth u t (q ++ [i]) =
      relDepth u t q + depth_of u (c.clades.get ⟨i, hi⟩) := by
    rw [relDepth_append u t q c hsub [i], relDepth_single c i _ hgetc u]
  have hdnn : 0 ≤ depth_of u (c.clades.get ⟨i, hi⟩) := by
    cases u with
    | true => rw [depth_of]; norm_num
    | false =>
      have := hbl (q ++ [i]) hmemqi
      rw [blAt, hsubchild] at this
      rw [depth_of]
      simpa using this
  rw [hdelta, ← add_assoc]
  refine add_le_add_right (mul_le_mul_of_nonneg_right ?_ hC_nonneg) 1
  exact le_add_of_nonneg_right hdnn
theorem foldl_max_rep {α : Type} [LinearOrder α] {a b : α} (h : b ≤ a) :
    ∀ n, (List.replicate n b).foldl max a = a := by
  intro n
  induction n with
  | zero => rfl
  | succ m ih =>
    rw [List.replicate_succ, List.foldl_cons, max_eq_left h]
    exact ih
theorem get_terminalsL_replicate (leaf : Clade) (hleaf : leaf.clades = []) :
    ∀ (N : Nat) (path : TPath) (i : Nat),
      get_terminalsL (List.replicate N leaf) path i =
        (List.range N).map (fun j => (path ++ [i + j], leaf)) := by
  intro N
  induction N with
  | zero => intro path i; simp [get_terminalsL]
  | succ n ih =>
    intro path i
    rw [List.replicate_succ, get_terminalsL, ih path (i + 1), List.range_succ_eq_map,
      List.map_cons, List.map_map]
    have hterm : get_terminals leaf (path ++ [i]) = [(path ++ [i], leaf)] := by
      cases leaf with
      | mk nm bl cf cs =>
        simp only [Clade.clades] at hleaf
        subst hleaf
        rw [get_terminals]
    rw [hterm]
    simp only [List.singleton_append, Nat.add_zero]
    refine congrArg _ (List.map_congr_left ?_)
    intro j _
    simp only [Function.comp_apply, Nat.succ_eq_add_one]
    rw [show i + (j + 1) = (i + 1) + j by omega]
theorem update_depthsL_replicate (leaf : Clade) (hleaf : leaf.clades = []) (u : Bool) :
    ∀ (N : Nat) (path : TPath) (i : Nat) (d : Rat),
      update_depthsL u (List.replicate N leaf) path i d =
        (List.range N).map (fun j => (path ++ [i + j], d + depth_of u leaf)) := by
  intro N
  induction N with
  | zero => intro path i d; simp [update_depthsL]
  | succ n ih =>
    intro path i d
    rw [List.replicate_succ, update_depthsL, ih path (i + 1) d, List.range_succ_eq_map,
      List.map_cons, List.map_map]
    have hup : update_depths u leaf (path ++ [i]) (d + depth_of u leaf)
        = [(path ++ [i], d + depth_of u leaf)] := by
      cases leaf with
      | mk nm bl cf cs =>
        simp only [Clade.clades] at hleaf
        subst hleaf
        rw [update_depths, update_depthsL]
    rw [hup]
    simp only [List.singleton_append, Nat.add_zero]
    refine congrArg _ (List.map_congr_left ?_)
    intro j _
    simp only [Function.comp_apply, Nat.succ_eq_add_one]
    rw [show i + (j + 1) = (i + 1) + j by omega]
theorem monster_clog : Nat.clog 2 monsterN = 40 := by
  have h1 : Nat.clog 2 monsterN ≤ 40 := by
    rw [← Nat.le_pow_iff_clog_le (by norm_num)]
    rw [monsterN]
    norm_num
  have h2 : 39 < Nat.clog 2 monsterN := by
    rw [← Nat.pow_lt_iff_lt_clog (by norm_num)]
    rw [monsterN]
    norm_num
  omega
theorem monster_terminals : get_terminals monsterTree [] =
    (List.range monsterN).map (fun j => ([j], monsterLeaf)) := by
  rw [monsterTree, show monsterN = 2 ^ 39 + 1 from rfl, List.replicate_succ,
    get_terminals, ← List.replicate_succ,
    get_terminalsL_replicate monsterLeaf rfl (2 ^ 39 + 1) [] 0]
  refine List.map_congr_left ?_
  intro j _
  simp
theorem monster_depths (u : Bool) : tree_depths monsterTree u =
    ([], 0) :: (List.range monsterN).map (fun j => ([j], depth_of u monsterLeaf)) := by
  rw [tree_depths, monsterTree, show monsterN = 2 ^ 39 + 1 from rfl, List.replicate_succ,
    update_depths, ← List.replicate_succ]
  rw [show (Clade.mk none none none
      (List.replicate (2 ^ 39 + 1) monsterLeaf)).branch_length.getD 0
      = (0 : Rat) from rfl]
  rw [update_depthsL_replicate monsterLeaf rfl u (2 ^ 39 + 1) [] 0 0]
  refine congrArg _ (List.map_congr_left ?_)
  intro j _
  simp
theorem monster_cols_run :
    MyPhylogeny.get_col_positions monsterTree 80 = .ok monsterCols := by
  have hlabels : (get_terminals monsterTree []).map (fun pc => (cladeStr pc.2).length)
      = 40 :: List.replicate (2 ^ 39) 40 := by
    rw [monster_terminals, List.map_map]
    have hfn : ((fun pc => (cladeStr (Prod.snd pc)).length) ∘
        (fun j => (([j] : TPath), monsterLeaf))) = fun (_ : Nat) => 40 := by
      funext j
      show (cladeStr monsterLeaf).length = 40
      rfl
    rw [hfn, List.map_const', List.length_range, show monsterN = 2 ^ 39 + 1 from rfl,
      List.replicate_succ]
  have hsndf : (tree_depths monsterTree false).map Prod.snd
      = 0 :: List.replicate monsterN 1 := by
    rw [monster_depths false, List.map_cons, List.map_map]
    have hfn : ((Prod.snd : TPath × Rat → Rat) ∘
        (fun j => (([j] : TPath), depth_of false monsterLeaf))) = fun (_ : Nat) => (1 : Rat) := by
      funext j
      show depth_of false monsterLeaf = 1
      rfl
    rw [hfn, List.map_const', List.length_range]
  have hpmaxf : pyMax ((tree_depths monsterTree false).map Prod.snd) = 1 := by
    rw [hsndf, pyMax, show monsterN = 2 ^ 39 + 1 from rfl, List.replicate_succ,
      List.foldl_cons, max_eq_right (by norm_num : (0 : Rat) ≤ 1)]
    exact foldl_max_rep (le_refl (1 : Rat)) _
  have hfold : List.foldl max 40 (List.replicate (2 ^ 39) 40) = 40 :=
    foldl_max_rep (le_refl _) _
  have htlen : (get_terminals monsterTree []).length = monsterN := by
    rw [monster_terminals]
    simp
  have hone : ¬ ((1 : Rat) = 0) := by norm_num
  rw [MyPhylogeny.get_col_positions, hlabels]
  simp only []
  rw [hpmaxf, if_neg hone, hpmaxf, if_neg hone]
  rw [hfold, htlen, monster_clog]
  rw [monster_depths false, monsterCols, List.map_cons, List.map_map]
  refine congrArg Except.ok ?_
  rw [List.cons.injEq]
  refine ⟨?_, ?_⟩
  · norm_num [pyInt]
  · refine List.map_congr_left ?_
    intro j _
    show (([j] : TPath), pyInt (depth_of false monsterLeaf *
        (((80 - ((40 : Nat) : Int) - 1 - ((40 : Nat) : Int) : Int) : Rat) / 1) + 1))
      = (([j] : TPath), 0)
    have hd : depth_of false monsterLeaf = 1 := rfl
    rw [hd]
    norm_num [pyInt]
theorem monster_lookup_root : alookup monsterCols [] = some 1 := rfl
theorem monster_lookup_child : alookup monsterCols [0] = some 0 := by
  rw [monsterCols, alookup, if_neg (by decide : ¬ (([0] : TPath) = []))]
  rw [show monsterN = 2 ^ 39 + 1 from rfl, List.range_succ_eq_map, List.map_cons]
  rw [alookup, if_pos rfl]
theorem monster_child0 : subcladeAt monsterTree [0] = some monsterLeaf := by
  rw [monsterTree, show monsterN = 2 ^ 39 + 1 from rfl, List.replicate_succ,
    subcladeAt, subcladeAtL, subcladeAt]
theorem monster_nonneg : allNonnegBL monsterTree := by
  intro q _
  cases q with
  | nil =>
    rw [blAt, subcladeAt]
    show (0 : Rat) ≤ (monsterTree.branch_length).getD 0
    norm_num [monsterTree, Clade.branch_length]
  | cons j q' =>
    rw [blAt, show subcladeAt monsterTree (j :: q')
        = subcladeAtL (List.replicate monsterN monsterLeaf) j q' from by
      rw [monsterTree, subcladeAt], subcladeAtL_get]
    cases hj : (List.replicate monsterN monsterLeaf).get? j with
    | none => simp
    | some e =>
      have he : e = monsterLeaf := by
        rw [List.get?_eq_getElem?, List.getElem?_replicate] at hj
        by_cases hlt : j < monsterN
        · rw [if_pos hlt] at hj
          exact (Option.some.injEq _ _ ▸ hj).symm
        · rw [if_neg hlt] at hj
          exact Option.noConfusion hj
      subst he
      cases q' with
      | nil =>
        simp only [Option.some_bind, subcladeAt]
        show (0 : Rat) ≤ (monsterLeaf.branch_length).getD 0
        norm_num [monsterLeaf, Clade.branch_length]
      | cons k q'' =>
        simp only [Option.some_bind]
        rw [show subcladeAt monsterLeaf (k :: q'') = subcladeAtL [] k q'' from by
          rw [monsterLeaf, subcladeAt], subcladeAtL_get]
        simp
theorem countP_not_eq {α : Type} (p : α → Bool) : ∀ l : List α,
    l.countP (fun a => !(p a)) + l.countP p = l.length := by
  intro l
  induction l with
  | nil => rfl
  | cons x xs ih =>
    rw [List.countP_cons, List.countP_cons, List.length_cons]
    cases hx : p x <;> simp [hx] <;> omega
theorem pySplit_ne_nil (sep : Char) : ∀ l : List Char, pySplit sep l ≠ [] := by
  intro l
  cases l with
  | nil => simp [pySplit]
  | cons c rest =>
    rw [pySplit]
    cases hps : pySplit sep rest with
    | nil => simp
    | cons f fs =>
      by_cases hc : c = sep <;> simp [hc]
theorem pySplit_headD (sep : Char) : ∀ l : List Char,
    (pySplit sep l).headD [] = l.takeWhile (fun c => c ≠ sep) := by
  intro l
  induction l with
  | nil => rfl
  | cons c rest ih =>
    rw [pySplit]
    cases hps : pySplit sep rest with
    | nil => exact absurd hps (pySplit_ne_nil sep rest)
    | cons f fs =>
      rw [hps] at ih
      simp only []
      by_cases hc : c = sep
      · rw [if_pos hc, List.takeWhile_cons]
        simp [hc]
      · rw [if_neg hc, List.takeWhile_cons]
        simp only [hc, decide_not]
        simp only [List.headD_cons] at ih ⊢
        rw [ih]
        simp [hc]
theorem takeWhile_eq_self_of_no_sep (sep : Char) : ∀ (l : List Char), sep ∉ l →
    l.takeWhile (fun c => c ≠ sep) = l := by
  intro l
  induction l with
  | nil => intro _; rfl
  | cons c rest ih =>
    intro hmem
    rw [List.takeWhile_cons]
    have hc : c ≠ sep := fun h => hmem (h ▸ List.mem_cons_self _ _)
    simp only [hc, decide_not]
    simp [ih fun h => hmem (List.mem_cons_of_mem _ h), hc]
    intro x hx hxe
    exact hmem (List.mem_cons_of_mem _ (hxe ▸ hx))
theorem foldl_append_map {α β : Type} (f : α → β) : ∀ (names : List α) (init : List β),
    names.foldl (fun st nm => st ++ [f nm]) init = init ++ names.map f := by
  intro names
  induction names with
  | nil => intro init; simp
  | cons n rest ih =>
    intro init
    rw [List.foldl_cons, ih, List.map_cons]
    simp

/-- Floor of the rational midpoint of two naturals is their Nat-division
midpoint, the value `(a + b) // 2` computes in the source. -/
theorem floor_half_nat (a b : Nat) :
    (⌊(((a : Rat) + (b : Rat)) / 2)⌋ : Int) = ((a + b) / 2 : Nat) := by
  have h : ((a : Rat) + (b : Rat)) / 2 = ((a + b : Nat) : Rat) / ((2 : Nat) : Rat) := by
    push_cast; ring
  rw [h, Rat.floor_natCast_div_natCast]
  exact_mod_cast rfl

/-- Ceiling log2 of 2 is 1 (the fudge margin of a two-leaf tree). -/
theorem clog_two_two : Nat.clog 2 2 = 1 := by simp [Nat.clog]

/-- Column positions computed for the unit-depth two-leaf tree `tree2`. -/
theorem tree2_cols_run : MyPhylogeny.get_col_positions tree2 80 = .ok colsTree2 := by
  rw [MyPhylogeny.get_col_positions]
  have hterm : get_terminals tree2 [] = [([0], leafA), ([1], leafB)] := rfl
  have hdep0 : tree_depths tree2 false = [([], 0), ([0], 0), ([1], 0)] := by
    rw [tree_depths]
    norm_num [tree2, leafA, leafB, update_depths, update_depthsL, depth_of,
      Clade.branch_length, Option.getD]
  have hdep1 : tree_depths tree2 true = [([], 0), ([0], 1), ([1], 1)] := by
    rw [tree_depths]
    norm_num [tree2, leafA, leafB, update_depths, update_depthsL, depth_of,
      Clade.branch_length, Option.getD]
  rw [hterm, hdep0, hdep1]
  norm_num [cladeStr, leafA, leafB, trim_str, Clade.name, pyMax, clog_two_two, pyInt,
    colsTree2]

/-- Column positions computed for `treeC3`: its negative-depth leaf lands on
column -37 because `int()` truncates toward zero. -/
theorem treeC3_cols_run : MyPhylogeny.get_col_positions treeC3 80 = .ok colsC3 := by
  rw [MyPhylogeny.get_col_positions]
  have hterm : get_terminals treeC3 [] =
      [([0], .mk (some "A".data) (some 2) none []),
       ([1], .mk (some "B".data) (some (-1)) none [])] := rfl
  have hdep0 : tree_depths treeC3 false = [([], 0), ([0], 2), ([1], -1)] := by
    rw [tree_depths]
    norm_num [treeC3, update_depths, update_depthsL, depth_of,
      Clade.branch_length, Option.getD]
  rw [hterm, hdep0]
  norm_num [cladeStr, trim_str, Clade.name, pyMax, clog_two_two, pyInt, colsC3]
  rw [Int.ceil_neg]
  norm_num

/-- All branch-length depths of `tree2` are zero (no branch lengths given). -/
theorem tree2_allZero : specAllZero tree2 := by
  intro q hq
  rw [show cladePaths tree2 = [[], [0], [1]] from rfl] at hq
  simp only [List.mem_cons, List.not_mem_nil, or_false] at hq
  rcases hq with rfl | rfl | rfl <;>
    norm_num [specBlDepth, tree2, leafA, leafB, relDepth, relDepthL,
      Clade.branch_length, depth_of, Option.getD]

/-- Under unit substitution the maximum depth of `tree2` is 1. -/
theorem tree2_specMaxDepth : specMaxDepth tree2 = 1 := by
  rw [specMaxDepth, show cladePaths tree2 = [[], [0], [1]] from rfl]
  have h0 : specDepth tree2 [] = 0 := by rw [specDepth, if_pos tree2_allZero]; norm_num
  have h1 : specDepth tree2 [0] = 1 := by rw [specDepth, if_pos tree2_allZero]; norm_num
  have h2 : specDepth tree2 [1] = 1 := by rw [specDepth, if_pos tree2_allZero]; norm_num
  rw [List.map_cons, List.map_cons, List.map_cons, List.map_nil, h0, h1, h2]
  norm_num [pyMax]

/-- The maximum depth of `tree2` is nonzero. -/
theorem tree2_specMaxDepth_ne : specMaxDepth tree2 ≠ 0 := by
  rw [tree2_specMaxDepth]
  norm_num

/-- All branch lengths of `tree2` are non-negative. -/
theorem tree2_nonnegBL : allNonnegBL tree2 := by
  unfold allNonnegBL
  decide

/-- The fudge margin of `tree2` fits inside its drawing width, so the scale
factor is non-negative. -/
theorem tree2_hscale :
    (Nat.clog 2 (get_terminals tree2 []).length : Int) ≤
      80 - (specMaxLabelWidth tree2 : Int) - 1 := by
  have hml : specMaxLabelWidth tree2 = 1 := by
    rw [specMaxLabelWidth]
    norm_num [get_terminals, get_terminalsL, tree2, leafA, leafB, cladeStr,
      Clade.name, trim_str]
  rw [show (get_terminals tree2 []).length = 2 from rfl, hml, clog_two_two]
  norm_num

/-- Not every branch-length depth of `treeC3` is zero (leaf A has depth 2). -/
theorem treeC3_not_allZero : ¬ specAllZero treeC3 := by
  intro h
  have h0 := h [0] (by rw [show cladePaths treeC3 = [[], [0], [1]] from rfl]; simp)
  rw [specBlDepth] at h0
  norm_num [treeC3, relDepth, relDepthL, Clade.branch_length, depth_of, Option.getD] at h0

/-- The spec-side depth of the negative-length leaf of `treeC3` is -1. -/
theorem treeC3_specDepth1 : specDepth treeC3 [1] = -1 := by
  rw [specDepth, if_neg treeC3_not_allZero, specBlDepth]
  norm_num [treeC3, relDepth, relDepthL, Clade.branch_length, depth_of, Option.getD]

/-- The spec-side scale factor of `treeC3` is 77/2. -/
theorem treeC3_specScale : specScale treeC3 = 77 / 2 := by
  rw [specScale]
  have hmd : specMaxDepth treeC3 = 2 := by
    rw [specMaxDepth, show cladePaths treeC3 = [[], [0], [1]] from rfl]
    have h0 : specDepth treeC3 [] = 0 := by
      rw [specDepth, if_neg treeC3_not_allZero, specBlDepth]
      norm_num [treeC3, relDepth, Clade.branch_length, Option.getD]
    have h1 : specDepth treeC3 [0] = 2 := by
      rw [specDepth, if_neg treeC3_not_allZero, specBlDepth]
      norm_num [treeC3, relDepth, relDepthL, Clade.branch_length, depth_of, Option.getD]
    rw [List.map_cons, List.map_cons, List.map_cons, List.map_nil, h0, h1, treeC3_specDepth1]
    norm_num [pyMax]
  have hml : specMaxLabelWidth treeC3 = 1 := by
    rw [specMaxLabelWidth]
    norm_num [get_terminals, get_terminalsL, treeC3, cladeStr, Clade.name, trim_str]
  rw [hmd, hml, show (get_terminals treeC3 []).length = 2 from rfl, clog_two_two]
  norm_num

/-- The monster star tree has at least one child below the root. -/
theorem monster_len : 0 < monsterTree.clades.length := by
  rw [monsterTree, Clade.clades, List.length_replicate]
  norm_num [monsterN]

/-- The two variants compute identical column tables. -/
theorem phyli_col_positions_eq (t : Clade) (w : Int) :
    Phyli.get_col_positions t w = MyPhylogeny.get_col_positions t w := rfl

/-- The two variants seed identical initial row dicts. -/
theorem phyli_init_positions_eq : ∀ (l : List (TPath × Clade)) (k : Nat),
    Phyli.init_positions l k = MyPhylogeny.init_positions l k
  | [], _ => rfl
  | (p, c) :: rest, k => by
    rw [Phyli.init_positions, MyPhylogeny.init_positions, phyli_init_positions_eq rest (k + 1)]

/- The two variants run `calc_row` identically. -/
mutual
theorem phyli_calc_row_eq : ∀ (c : Clade) (path : TPath) (m : RowMap),
    Phyli.calc_row c path m = MyPhylogeny.calc_row c path m
  | .mk nm bl cf cs, path, m => by
    rw [Phyli.calc_row, MyPhylogeny.calc_row, phyli_calc_rowL_eq cs path 0 m]
termination_by c _ _ => sizeOf c
theorem phyli_calc_rowL_eq : ∀ (cs : List Clade) (path : TPath) (i : Nat) (m : RowMap),
    Phyli.calc_rowL cs path i m = MyPhylogeny.calc_rowL cs path i m
  | [], _, _, _ => rfl
  | c :: cs, path, i, m => by
    rw [Phyli.calc_rowL, MyPhylogeny.calc_rowL]
    cases hs : (alookup m (path ++ [i])).isSome with
    | true =>
      rw [if_pos rfl, if_pos rfl]
      simp only []
      exact phyli_calc_rowL_eq cs path (i + 1) m
    | false =>
      rw [if_neg Bool.false_ne_true, if_neg Bool.false_ne_true]
      rw [phyli_calc_row_eq c (path ++ [i]) m]
      cases hr : MyPhylogeny.calc_row c (path ++ [i]) m with
      | error e => rfl
      | ok m1 =>
        simp only []
        exact phyli_calc_rowL_eq cs path (i + 1) m1
termination_by cs _ _ _ => sizeOf cs
end

/-- The two variants compute identical row tables. -/
theorem phyli_row_positions_eq (t : Clade) :
    Phyli.get_row_positions t = MyPhylogeny.get_row_positions t := by
  rw [Phyli.get_row_positions, MyPhylogeny.get_row_positions, phyli_init_positions_eq,
    phyli_calc_row_eq]

/- The two variants emit identical node and edge lists. -/
mutual
theorem phyli_add_to_elements_eq : ∀ (colp : List (TPath × Int)) (rowp : RowMap)
    (xlen ylen : Int) (g : Bool) (c : Clade) (path : TPath) (cid : List Char),
    Phyli.add_to_elements colp rowp xlen ylen g c path cid =
      MyPhylogeny.add_to_elements colp rowp xlen ylen g c path cid
  | colp, rowp, xlen, ylen, g, .mk nm bl cf cs, path, cid => by
    rw [Phyli.add_to_elements, MyPhylogeny.add_to_elements]
    cases hcol : alookup colp path with
    | none => rfl
    | some col =>
      cases hrow : alookup rowp path with
      | none => rfl
      | some row =>
        simp only []
        rw [phyli_add_childrenL_eq colp rowp xlen ylen g cs path cid (col * xlen) bl 0]
termination_by _ _ _ _ _ c _ _ => sizeOf c
theorem phyli_add_childrenL_eq : ∀ (colp : List (TPath × Int)) (rowp : RowMap)
    (xlen ylen : Int) (g : Bool) (cs : List Clade) (path : TPath) (cid : List Char)
    (pos_x : Int) (pbl : Option Rat) (n : Nat),
    Phyli.add_childrenL colp rowp xlen ylen g cs path cid pos_x pbl n =
      MyPhylogeny.add_childrenL colp rowp xlen ylen g cs path cid pos_x pbl n
  | colp, rowp, xlen, ylen, g, [], path, cid, pos_x, pbl, n => rfl
  | colp, rowp, xlen, ylen, g, child :: rest, path, cid, pos_x, pbl, n => by
    rw [Phyli.add_childrenL, MyPhylogeny.add_childrenL]
    cases hrow : alookup rowp (path ++ [n]) with
    | none => rfl
    | some rowc =>
      simp only []
      rw [phyli_add_to_elements_eq colp rowp xlen ylen g child (path ++ [n])
        (cid ++ 'c' :: natChars n)]
      cases hrec : MyPhylogeny.add_to_elements colp rowp xlen ylen g child (path ++ [n])
          (cid ++ 'c' :: natChars n) with
      | error e => rfl
      | ok pair =>
        rcases pair with ⟨cns, ces⟩
        simp only []
        rw [phyli_add_childrenL_eq colp rowp xlen ylen g rest path cid pos_x pbl (n + 1)]
termination_by _ _ _ _ _ cs _ _ _ _ _ => sizeOf cs
end

/-- Claim C1: for every input tree (with a non-degenerate root, so that
`calc_row` does not raise IndexError), `get_row_positions` succeeds and
assigns every internal clade — the root included — the floor of the rational
midpoint of its first and last child's rows, children taken in stored
order. -/
theorem claim_C1 (t : Clade) (hne : t.clades ≠ []) :
    ∃ m, MyPhylogeny.get_row_positions t = .ok m ∧
      ∀ q, isInternalAt t q = true →
        ∃ a b r, alookup m (q ++ [0]) = some a ∧
          alookup m (q ++ [childCountAt t q - 1]) = some b ∧
          alookup m q = some r ∧ (r : Int) = ⌊(((a : Rat) + (b : Rat)) / 2)⌋ := by
  obtain ⟨m, hrun, _, hmid⟩ := get_row_positions_spec t hne
  refine ⟨m, hrun, ?_⟩
  intro q hq
  obtain ⟨a, b, ha, hb, hk⟩ := hmid q hq
  exact ⟨a, b, (a + b) / 2, ha, hb, hk, (floor_half_nat a b).symm⟩

/-- Witness for C1 on the balanced three-leaf tree ((A,B),C). -/
theorem claim_C1_witness :
    tree3.clades ≠ [] ∧
    (∃ m, MyPhylogeny.get_row_positions tree3 = .ok m ∧
      ∀ q, isInternalAt tree3 q = true →
        ∃ a b r, alookup m (q ++ [0]) = some a ∧
          alookup m (q ++ [childCountAt tree3 q - 1]) = some b ∧
          alookup m q = some r ∧ (r : Int) = ⌊(((a : Rat) + (b : Rat)) / 2)⌋) :=
  ⟨by simp [tree3, Clade.clades], claim_C1 tree3 (by simp [tree3, Clade.clades])⟩

/-- Claim C2: for every tree with at least two leaves, `get_row_positions`
succeeds and assigns the i-th terminal (0-based, pre-order) row 2i, so the
leaf rows are 0, 2, 4, …, 2(k-1) in traversal order. -/
theorem claim_C2 (t : Clade) (h2 : 2 ≤ (get_terminals t []).length) :
    ∃ m, MyPhylogeny.get_row_positions t = .ok m ∧
      ∀ (i : Nat) (hi : i < (get_terminals t []).length),
        alookup m ((get_terminals t []).get ⟨i, hi⟩).1 = some (2 * i) := by
  have hne : t.clades ≠ [] := by
    intro hcs
    rcases t with ⟨nm, bl, cf, cs⟩
    simp only [Clade.clades] at hcs
    subst hcs
    rw [get_terminals] at h2
    simp at h2
  obtain ⟨m, hrun, hpres, _⟩ := get_row_positions_spec t hne
  refine ⟨m, hrun, ?_⟩
  intro i hi
  set p := ((get_terminals t []).get ⟨i, hi⟩).1 with hp
  have hpleaf : isLeafAt t p = true := by
    refine (mem_leafPaths t p).mp ?_
    rw [← get_terminals_keys, hp]
    exact List.mem_map_of_mem Prod.fst (List.get_mem _ _ _)
  have hnint : ∀ q, isInternalAt t q = true → p ≠ q := by
    intro q hq heq
    exact leaf_internal_contra (heq ▸ hpleaf) hq
  rw [hpres p hnint]
  have hnd : ((get_terminals t []).map Prod.fst).Nodup := by
    rw [get_terminals_keys]
    exact leafPaths_nodup t
  have := alookup_init_get (get_terminals t []) 0 hnd i hi
  rw [Nat.zero_add] at this
  exact this

/-- Witness for C2 on the two-leaf tree (A,B). -/
theorem claim_C2_witness :
    2 ≤ (get_terminals tree2 []).length ∧
    (∃ m, MyPhylogeny.get_row_positions tree2 = .ok m ∧
      ∀ (i : Nat) (hi : i < (get_terminals tree2 []).length),
        alookup m ((get_terminals tree2 []).get ⟨i, hi⟩).1 = some (2 * i)) :=
  ⟨by decide, claim_C2 tree2 (by decide)⟩

/-- Claim C3 (amended): with at least one leaf and a nonzero maximum depth,
`get_col_positions` at the default width 80 succeeds and assigns every clade
the column `int(depth * scale + 1)` where `int()` truncates toward zero (not
floor), `depth` is the cumulative branch-length sum from the root — or the
edge count when every branch-length depth is zero — and `scale` is
(80 - longest-label width - 1 - ceil(log2(leaf count))) / (maximum depth). -/
theorem claim_C3 (t : Clade) (h1 : 1 ≤ (get_terminals t []).length)
    (h2 : specMaxDepth t ≠ 0) :
    ∃ l, MyPhylogeny.get_col_positions t 80 = .ok l ∧
      ∀ q, (subcladeAt t q).isSome = true →
        alookup l q = some (pyInt (specDepth t q * specScale t + 1)) :=
  get_col_positions_spec t h1 h2

/-- Witness for C3 on the two-leaf tree (A,B). -/
theorem claim_C3_witness :
    (1 ≤ (get_terminals tree2 []).length ∧ specMaxDepth tree2 ≠ 0) ∧
    (∃ l, MyPhylogeny.get_col_positions tree2 80 = .ok l ∧
      ∀ q, (subcladeAt tree2 q).isSome = true →
        alookup l q = some (pyInt (specDepth tree2 q * specScale tree2 + 1))) :=
  ⟨⟨by decide, tree2_specMaxDepth_ne⟩,
   claim_C3 tree2 (by decide) tree2_specMaxDepth_ne⟩

/-- Counterexample to the literal claim C3: on `treeC3` the leaf at path [1]
has depth -1 and lands on column -37 = int(-37.5) (truncation toward zero),
while floor(depth * scale + 1) = floor(-37.5) = -38. -/
theorem claim_C3_counterexample :
    MyPhylogeny.get_col_positions treeC3 80 = .ok colsC3 ∧
    alookup colsC3 [1] = some (-37) ∧
    specDepth treeC3 [1] * specScale treeC3 + 1 = -75 / 2 ∧
    (⌊(-75 / 2 : Rat)⌋ = (-38 : Int)) ∧ ((-37 : Int) ≠ -38) := by
  refine ⟨treeC3_cols_run, rfl, ?_, by norm_num, by decide⟩
  rw [treeC3_specDepth1, treeC3_specScale]
  norm_num

/-- Claim C4 (amended): any successful `add_to_elements` run emits exactly
one drawable (non-support) node per clade, one support node per parent-child
relationship (clade count - 1 of them), and two edges per parent-child
relationship; the total node count is 2 x (clade count) - 1, not
2 x (clade count) - (leaf count) as claimed. -/
theorem claim_C4 (colp : List (TPath × Int)) (rowp : RowMap) (xlen ylen : Int) (g : Bool)
    (c : Clade) (path : TPath) (cid : List Char) (ns : List CyNode) (es : List CyEdge)
    (h : MyPhylogeny.add_to_elements colp rowp xlen ylen g c path cid = .ok (ns, es)) :
    ns.length = 2 * cladeCount c - 1 ∧
    ns.countP (fun nd => !(isSupport nd)) = cladeCount c ∧
    ns.countP (fun nd => isSupport nd) = cladeCount c - 1 ∧
    es.length = 2 * (cladeCount c - 1) := by
  obtain ⟨_, hlen, hsup, helen⟩ := add_to_elements_spec colp rowp xlen ylen g c path cid ns es h
  have hcp := cladeCount_pos c
  have hcnt := countP_not_eq (fun nd => isSupport nd) ns
  refine ⟨hlen, ?_, hsup, helen⟩
  omega

/-- Witness for C4 on the single leaf A. -/
theorem claim_C4_witness :
    MyPhylogeny.add_to_elements soloColMap soloRowMap 30 30 false leafA [] ['r']
      = .ok (soloNodes, []) ∧
    (soloNodes.length = 2 * cladeCount leafA - 1 ∧
     soloNodes.countP (fun nd => !(isSupport nd)) = cladeCount leafA ∧
     soloNodes.countP (fun nd => isSupport nd) = cladeCount leafA - 1 ∧
     ([] : List CyEdge).length = 2 * (cladeCount leafA - 1)) :=
  ⟨by decide,
   claim_C4 soloColMap soloRowMap 30 30 false leafA [] ['r'] soloNodes [] (by decide)⟩

/-- Counterexample to the literal claim C4: on the two-leaf tree (A,B) the
run emits 5 nodes, while 2 x (clade count) - (leaf count) = 2 x 3 - 2 = 4. -/
theorem claim_C4_counterexample :
    MyPhylogeny.add_to_elements zeroCols2 zeroRows2 30 30 false tree2 [] ['r']
      = .ok (nodesTree2, edgesTree2) ∧
    nodesTree2.length = 5 ∧ cladeCount tree2 = 3 ∧
    (get_terminals tree2 []).length = 2 ∧
    2 * cladeCount tree2 - (get_terminals tree2 []).length = 4 ∧ (5 : Nat) ≠ 4 :=
  ⟨by decide, by decide, by decide, by decide, by decide, by decide⟩

/-- Claim C5 (documenting the code bug): on the degenerate single-leaf tree
the layout computation fails with a bare ZeroDivisionError propagating out of
`get_col_positions` — not the defined "cannot lay out empty or zero-depth
tree" error the spec requires. -/
theorem claim_C5 :
    MyPhylogeny.generate_elements leafSolo 30 30 false = .error "ZeroDivisionError" ∧
    MyPhylogeny.get_col_positions leafSolo 80 = .error "ZeroDivisionError" :=
  ⟨by decide, by decide⟩

/-- Claim C6 (amended): when all branch lengths are non-negative AND the
fudge margin ceil(log2(leaf count)) does not exceed the drawing width
(80 - longest-label width - 1) — so the scale factor is non-negative — every
successful column assignment is monotonically non-decreasing from each clade
to each of its children, hence along every root-to-leaf path. -/
theorem claim_C6 (t : Clade) (l : List (TPath × Int))
    (hrun : MyPhylogeny.get_col_positions t 80 = .ok l)
    (hbl : allNonnegBL t)
    (hscale : (Nat.clog 2 (get_terminals t []).length : Int) ≤
      80 - (specMaxLabelWidth t : Int) - 1) :
    ∀ (q : TPath) (c : Clade) (i : Nat) (a b : Int),
      subcladeAt t q = some c → i < c.clades.length →
      alookup l q = some a → alookup l (q ++ [i]) = some b → a ≤ b :=
  get_col_positions_mono t l hrun hbl hscale

/-- Witness for C6 on the two-leaf tree (A,B): root column 1, child column
78. -/
theorem claim_C6_witness :
    MyPhylogeny.get_col_positions tree2 80 = .ok colsTree2 ∧ allNonnegBL tree2 ∧
    ((Nat.clog 2 (get_terminals tree2 []).length : Int) ≤
      80 - (specMaxLabelWidth tree2 : Int) - 1) ∧
    (1 : Int) ≤ 78 :=
  ⟨tree2_cols_run, tree2_nonnegBL, tree2_hscale,
   claim_C6 tree2 colsTree2 tree2_cols_run tree2_nonnegBL tree2_hscale
     [] tree2 0 1 78 rfl (by decide) rfl rfl⟩

/-- Counterexample to the literal claim C6: the star tree with 2^39 + 1
leaves of branch length 1 (all non-negative) makes the fudge margin 40 exceed
the drawing width 39, the scale factor negative, and the root's column 1
strictly greater than its first child's column 0. -/
theorem claim_C6_counterexample :
    allNonnegBL monsterTree ∧
    MyPhylogeny.get_col_positions monsterTree 80 = .ok monsterCols ∧
    subcladeAt monsterTree [] = some monsterTree ∧
    0 < monsterTree.clades.length ∧
    alookup monsterCols [] = some 1 ∧
    alookup monsterCols ([] ++ [0]) = some 0 ∧
    ¬ ((1 : Int) ≤ 0) :=
  ⟨monster_nonneg, monster_cols_run, rfl, monster_len,
   monster_lookup_root, by rw [List.nil_append]; exact monster_lookup_child, by decide⟩

/-- Claim C7: any successful `add_to_elements` run from the root identifier
"r" emits pairwise distinct node identifiers (root "r", support p+"s"+str(n),
child p+"c"+str(n)), and the node and edge lists are uniquely determined by
the tree and its stored child order. -/
theorem claim_C7 (colp : List (TPath × Int)) (rowp : RowMap) (xlen ylen : Int) (g : Bool)
    (c : Clade) (path : TPath) (ns : List CyNode) (es : List CyEdge)
    (h : MyPhylogeny.add_to_elements colp rowp xlen ylen g c path ['r'] = .ok (ns, es)) :
    (ns.map CyNode.id).Nodup ∧
    ∀ ns' es',
      MyPhylogeny.add_to_elements colp rowp xlen ylen g c path ['r'] = .ok (ns', es') →
      ns' = ns ∧ es' = es := by
  obtain ⟨hids, _, _, _⟩ := add_to_elements_spec colp rowp xlen ylen g c path ['r'] ns es h
  constructor
  · rw [hids]
    exact idList_nodup c ['r']
  · intro ns' es' h'
    rw [h] at h'
    simp only [Except.ok.injEq, Prod.mk.injEq] at h'
    exact ⟨h'.1.symm, h'.2.symm⟩

/-- Witness for C7 on the two-leaf tree (A,B): the five identifiers r, rs0,
rc0, rs1, rc1 are distinct. -/
theorem claim_C7_witness :
    MyPhylogeny.add_to_elements zeroCols2 zeroRows2 20 20 true tree2 [] ['r']
      = .ok (nodesTree2.map (fun nd => { nd with grabbable := true }), edgesTree2) ∧
    ((nodesTree2.map (fun nd => { nd with grabbable := true })).map CyNode.id).Nodup ∧
    (∀ ns' es',
      MyPhylogeny.add_to_elements zeroCols2 zeroRows2 20 20 true tree2 [] ['r']
        = .ok (ns', es') →
      ns' = nodesTree2.map (fun nd => { nd with grabbable := true }) ∧ es' = edgesTree2) :=
  ⟨by decide,
   claim_C7 zeroCols2 zeroRows2 20 20 true tree2 []
     (nodesTree2.map (fun nd => { nd with grabbable := true })) edgesTree2 (by decide)⟩

/-- Claim C8: for every hovered edge, `color_children` returns the module
stylesheet (all base and highlight rules still present, in order) extended
with exactly one rule targeting edges whose source contains the portion of
the hovered source identifier before its first "s" (the identifier unchanged
when it contains no "s"). -/
theorem claim_C8 (ed : CyEdge) :
    MyPhylogeny.color_children (some ed) =
      MyPhylogeny.stylesheet ++
        [{ selector := .edgeSourceContains (ed.source.takeWhile (fun ch => ch ≠ 's'))
           style := [("line-color".data, StyleVal.str "blue".data)] }] := by
  rw [MyPhylogeny.color_children]
  simp only []
  by_cases hs : 's' ∈ ed.source
  · rw [if_pos hs, pySplit_headD]
  · rw [if_neg hs, takeWhile_eq_self_of_no_sep 's' ed.source hs]

/-- Claim C9: for every allow-list, both variants append exactly one
highlight rule per entry, in list order, after the four base rules; the
my_phylogeny.py rule matches a node name by exact equality with the raw
entry, the phyli.py rule by substring containment of the entry with spaces
replaced by underscores. -/
theorem claim_C9 (names : List (List Char)) :
    MyPhylogeny.stylesheet_for names =
      MyPhylogeny.base_stylesheet ++ names.map MyPhylogeny.highlight_rule ∧
    Phyli.stylesheet_for names =
      Phyli.base_stylesheet ++ names.map Phyli.highlight_rule ∧
    (∀ entry nm, selector_matches_name (MyPhylogeny.highlight_rule entry).selector nm
      = (nm == entry)) ∧
    (∀ entry nm, selector_matches_name (Phyli.highlight_rule entry).selector nm
      = decide (Phyli.escaped_name entry <:+: nm)) := by
  refine ⟨?_, ?_, ?_, ?_⟩
  · rw [MyPhylogeny.stylesheet_for, foldl_append_map]
  · rw [Phyli.stylesheet_for, foldl_append_map]
  · intro entry nm; rfl
  · intro entry nm; rfl

/-- Claim C10: the `generate_elements` functions of src/my_phylogeny.py and
src/phyli.py are extensionally equal — for every tree and identical
parameters (and the shared default column width 80) they produce identical
node and edge lists. -/
theorem claim_C10 (t : Clade) (xlen ylen : Int) (g : Bool) :
    MyPhylogeny.generate_elements t xlen ylen g = Phyli.generate_elements t xlen ylen g := by
  rw [MyPhylogeny.generate_elements, Phyli.generate_elements]
  rw [show Phyli.get_col_positions t 80 = MyPhylogeny.get_col_positions t 80 from rfl]
  cases hc : MyPhylogeny.get_col_positions t 80 with
  | error e => rfl
  | ok colp =>
    simp only []
    rw [phyli_row_positions_eq]
    cases hr : MyPhylogeny.get_row_positions t with
    | error e => rfl
    | ok rowp =>
      simp only []
      exact (phyli_add_to_elements_eq colp rowp xlen ylen g t [] ['r']).symm
